import Mathlib

/-!
# Verification of the `goint` adaptive integrator

Shallow embedding of `integrator.go` (package `goint`): the 5-point
Boole's-rule panel `boolesrule`, the breakpoint-refinement function
`refinedPoints`, and the adaptive driver `Integrate`.

Numbers are modelled by `F`: an exact rational (`F.fin`), the two IEEE
infinities (`F.pinf`, `F.ninf`) and `F.nan`.  Arithmetic follows the
IEEE-754 rules on these value classes (`∞ - ∞ = NaN`, `0 · ∞ = NaN`,
NaN absorbs, comparisons with NaN are false); finite arithmetic is exact
rational arithmetic, so rounding of finite intermediate results is not
modelled, and the two IEEE zeros are collapsed into the single rational
zero.  The unbounded `for !done` loop of `Integrate` is modelled with an
explicit fuel parameter: `none` means the loop did not finish within the
given fuel, and non-termination is expressed as returning `none` for
every fuel.

The finite arithmetic is written with `mkRat`-based helpers (`qadd`,
`qmul`, `qneg`, `qdivP`, `qabs`) so that every operation reduces inside
the kernel; the bridge lemmas `qadd_eq` … `qabs_eq` prove each helper
equal to the corresponding field operation on `ℚ`.
-/

/-! ## Kernel-computable rational arithmetic -/

/-- Negation on `ℚ`, via `mkRat`. -/
def qneg (a : ℚ) : ℚ := mkRat (-a.num) a.den

/-- Addition on `ℚ`, via `mkRat`. -/
def qadd (a b : ℚ) : ℚ := mkRat (a.num * b.den + b.num * a.den) (a.den * b.den)

/-- Multiplication on `ℚ`, via `mkRat`. -/
def qmul (a b : ℚ) : ℚ := mkRat (a.num * b.num) (a.den * b.den)

/-- Division on `ℚ`, via `mkRat`; agrees with `a / b` for `0 < b`. -/
def qdivP (a b : ℚ) : ℚ := mkRat (a.num * b.den) (a.den * b.num.natAbs)

/-- Absolute value on `ℚ`, via `mkRat`. -/
def qabs (a : ℚ) : ℚ := mkRat a.num.natAbs a.den

theorem qadd_eq (a b : ℚ) : qadd a b = a + b := (Rat.add_def' a b).symm

theorem qneg_eq (a : ℚ) : qneg a = -a := by
  rw [qneg, ← Rat.neg_mkRat, Rat.mkRat_self]

theorem qmul_eq (a b : ℚ) : qmul a b = a * b := by
  rw [qmul, Rat.mkRat_eq_divInt, Int.natCast_mul, ← Rat.divInt_mul_divInt a.num b.num
    (Int.natCast_ne_zero.mpr a.den_nz) (Int.natCast_ne_zero.mpr b.den_nz)]
  rw [Rat.divInt_self, Rat.divInt_self]

theorem qabs_eq (a : ℚ) : qabs a = |a| := by
  rcases abs_cases a with ⟨h1, h2⟩ | ⟨h1, h2⟩
  · rw [qabs, h1, Int.natAbs_of_nonneg (Rat.num_nonneg.mpr h2), Rat.mkRat_self]
  · rw [qabs, h1, ← Rat.mkRat_self (-a), Rat.neg_num, Rat.neg_den]
    congr 1
    have h3 : a.num < 0 := Rat.num_neg.mpr h2
    omega

theorem num_eq_mul_den (a : ℚ) : (a.num : ℚ) = a * a.den := by
  have had : ((a.den : ℚ)) ≠ 0 := Nat.cast_ne_zero.mpr a.den_nz
  exact (div_eq_iff had).mp (Rat.num_div_den a)

theorem qdivP_eq (a b : ℚ) (hb : 0 < b) : qdivP a b = a / b := by
  have hbn : 0 < b.num := Rat.num_pos.mpr hb
  have had : ((a.den : ℚ)) ≠ 0 := Nat.cast_ne_zero.mpr a.den_nz
  have hbq : ((b.num : ℚ)) ≠ 0 := Int.cast_ne_zero.mpr hbn.ne'
  have hcast : ((a.den * b.num.natAbs : ℕ) : ℚ) = (a.den : ℚ) * (b.num : ℚ) := by
    push_cast [Int.cast_natAbs]
    rw [abs_of_nonneg (by exact_mod_cast hbn.le : (0:ℚ) ≤ (b.num : ℚ))]
  rw [qdivP, Rat.mkRat_eq_div, hcast]
  push_cast
  rw [div_eq_div_iff (mul_ne_zero had hbq) hb.ne']
  linear_combination ((b.den : ℚ) * b) * num_eq_mul_den a - (a * (a.den : ℚ)) * num_eq_mul_den b

/-! ## The `float64` value classes -/

/-- A `float64` value class: an exact finite value, `+Inf`, `-Inf`, or `NaN`. -/
inductive F where
  | fin : ℚ → F
  | pinf : F
  | ninf : F
  | nan : F
deriving DecidableEq, Repr

namespace F

/-- `math.IsInf(x, 1)`. -/
def isPInf : F → Bool
  | pinf => true
  | _ => false

/-- `math.IsInf(x, -1)`. -/
def isNInf : F → Bool
  | ninf => true
  | _ => false

/-- The value is neither infinite nor NaN. -/
def isFinite : F → Bool
  | fin _ => true
  | _ => false

/-- IEEE negation on value classes. -/
def fneg : F → F
  | fin q => fin (qneg q)
  | pinf => ninf
  | ninf => pinf
  | nan => nan

/-- IEEE addition on value classes (`+Inf + -Inf = NaN`, NaN absorbs). -/
def fadd : F → F → F
  | fin p, fin q => fin (qadd p q)
  | fin _, pinf => pinf
  | fin _, ninf => ninf
  | pinf, fin _ => pinf
  | ninf, fin _ => ninf
  | pinf, pinf => pinf
  | ninf, ninf => ninf
  | pinf, ninf => nan
  | ninf, pinf => nan
  | nan, _ => nan
  | _, nan => nan

/-- IEEE subtraction: `a - b = a + (-b)` on value classes. -/
def fsub (a b : F) : F := fadd a (fneg b)

/-- IEEE multiplication on value classes (`0 · ∞ = NaN`, NaN absorbs). -/
def fmul : F → F → F
  | fin p, fin q => fin (qmul p q)
  | fin p, pinf => if 0 < p then pinf else if p < 0 then ninf else nan
  | fin p, ninf => if 0 < p then ninf else if p < 0 then pinf else nan
  | pinf, fin q => if 0 < q then pinf else if q < 0 then ninf else nan
  | ninf, fin q => if 0 < q then ninf else if q < 0 then pinf else nan
  | pinf, pinf => pinf
  | ninf, ninf => pinf
  | pinf, ninf => ninf
  | ninf, pinf => ninf
  | nan, _ => nan
  | _, nan => nan

/-- IEEE division by a positive finite constant.  Every division in
`integrator.go` divides by one of the literals `4.0`, `45.0`, `2`,
so only this case of IEEE division is ever exercised. -/
def fdivPos (x : F) (q : ℚ) : F :=
  match x with
  | fin p => fin (qdivP p q)
  | pinf => pinf
  | ninf => ninf
  | nan => nan

/-- `math.Abs` on value classes (`Abs(NaN) = NaN`). -/
def fabs : F → F
  | fin q => fin (qabs q)
  | pinf => pinf
  | ninf => pinf
  | nan => nan

/-- IEEE `<`: any comparison involving NaN is false. -/
def flt : F → F → Bool
  | fin p, fin q => decide (p < q)
  | fin _, pinf => true
  | ninf, fin _ => true
  | ninf, pinf => true
  | _, _ => false

/-- IEEE `<=`: any comparison involving NaN is false. -/
def fle : F → F → Bool
  | fin p, fin q => decide (p ≤ q)
  | fin _, pinf => true
  | ninf, fin _ => true
  | ninf, pinf => true
  | pinf, pinf => true
  | ninf, ninf => true
  | _, _ => false

end F

open F

/-- Rewrites of the finite-value cases of the `F` operations to the
field operations on `ℚ`. -/
theorem fadd_fin (p q : ℚ) : fadd (F.fin p) (F.fin q) = F.fin (p + q) := by
  simp [fadd, qadd_eq]

theorem fneg_fin (p : ℚ) : fneg (F.fin p) = F.fin (-p) := by
  simp [fneg, qneg_eq]

theorem fmul_fin (p q : ℚ) : fmul (F.fin p) (F.fin q) = F.fin (p * q) := by
  simp [fmul, qmul_eq]

theorem fsub_fin (p q : ℚ) : fsub (F.fin p) (F.fin q) = F.fin (p - q) := by
  simp [fsub, fneg_fin, fadd_fin]
  ring

theorem fdivPos_fin (p q : ℚ) (hq : 0 < q) :
    fdivPos (F.fin p) q = F.fin (p / q) := by
  simp [fdivPos, qdivP_eq p q hq]

theorem fabs_fin (p : ℚ) : fabs (F.fin p) = F.fin |p| := by
  simp [fabs, qabs_eq]

/-- List lookup as Go slice indexing; out-of-range reads (which would
panic in Go and are never reached on the paths we verify) give `F.nan`. -/
def pget (l : List F) (i : Nat) : F := l.getD i F.nan

/-- Pointwise update of a `Nat`-indexed map, modelling one Go slice write. -/
def upd (g : Nat → F) (i : Nat) (v : F) : Nat → F :=
  fun k => if k = i then v else g k

theorem upd_same (g : Nat → F) (i : Nat) (v : F) : upd g i v i = v := by
  simp [upd]

theorem upd_other (g : Nat → F) (i : Nat) (v : F) (k : Nat) (h : k ≠ i) :
    upd g i v k = g k := by
  simp [upd, h]

/-! ## `refinedPoints` (integrator.go lines 82–128)

The Go function allocates `refined := make([]float64, len(points)*2-1)`
(zero-initialised) and then performs a fixed sequence of index writes:
the left-endpoint block (indices 0,1), the interior loop
(`for i := 1; i < points_end-1; i++`, indices `2i`, `2i+1`), and the
right-endpoint block (indices `2n-2`, `2n-3`, `2n-4`), in that order.
We model the slice as a map `Nat → F` built by the same writes in the
same order, and read off the first `2n-1` entries; the write order
matters because for `len(points) == 2` the right block overwrites
slots written by the left block. -/

/-- The interior write loop `for i := 1; i < points_end-1; i++` of
`refinedPoints`, writing `refined[2i] = points[i]` and
`refined[2i+1] = (points[i]+points[i+1])/2`; `cnt` is the number of
remaining iterations, so the loop is entered with `cnt = n - 3`
(zero when `n ≤ 3`, matching the Go loop bound). -/
def midWrites (pts : List F) : Nat → Nat → (Nat → F) → Nat → F
  | _, 0, g => g
  | i, cnt+1, g =>
    midWrites pts (i+1) cnt
      (upd (upd g (2*i) (pget pts i))
        (2*i+1) (fdivPos (fadd (pget pts i) (pget pts (i+1))) 2))

/-- The full write sequence of the general (non-bootstrap) branch of
`refinedPoints`, as a map from slice index to written value. -/
def mkRefined (pts : List F) : Nat → F :=
  let n := pts.length
  let base : Nat → F := fun _ => F.fin 0
  let afterLeft : Nat → F :=
    if isNInf (pget pts 0) then
      upd (upd base 0 (pget pts 0)) 1 (fmul (pget pts 1) (F.fin 2))
    else
      upd (upd base 0 (pget pts 0)) 1 (fdivPos (fadd (pget pts 0) (pget pts 1)) 2)
  let afterMid := midWrites pts 1 (n - 3) afterLeft
  let pe := n - 1
  let re := 2*n - 2
  if isPInf (pget pts pe) then
    upd (upd (upd afterMid re (pget pts pe))
      (re-1) (fmul (pget pts (pe-1)) (F.fin 2)))
      (re-2) (pget pts (pe-1))
  else
    upd (upd (upd afterMid re (pget pts pe))
      (re-1) (fdivPos (fadd (pget pts pe) (pget pts (pe-1))) 2))
      (re-2) (pget pts (pe-1))

/-- `refinedPoints` (integrator.go): midpoint refinement of the
breakpoint sequence, with the three two-point bootstrap special cases
for infinite endpoints checked first. -/
def refinedPoints (pts : List F) : List F :=
  if pts.length = 2 ∧ isNInf (pget pts 0) ∧ isPInf (pget pts 1) then
    [pget pts 0, F.fin 0, pget pts 1]
  else if pts.length = 2 ∧ isNInf (pget pts 0) ∧ fle (F.fin 0) (pget pts 1) then
    [pget pts 0, F.fin (-1), pget pts 1]
  else if pts.length = 2 ∧ isPInf (pget pts 1) ∧ fle (pget pts 0) (F.fin 0) then
    [pget pts 0, F.fin 1, pget pts 1]
  else
    (List.range (2 * pts.length - 1)).map (mkRefined pts)

/-! ## The panel rule and the driver (integrator.go lines 14–76) -/

/-- `boolesrule` (integrator.go lines 14–23): the closed 5-point
Newton–Cotes formula over `[a, b]`. -/
def boolesrule (f : F → F) (a b : F) : F :=
  let h := fdivPos (fsub b a) 4
  let fa := f a
  let f2 := f (fadd a h)
  let f3 := f (fadd a (fmul (F.fin 2) h))
  let f4 := f (fadd a (fmul (F.fin 3) h))
  let fb := f b
  fdivPos
    (fmul (fmul (F.fin 2) h)
      (fadd (fadd (fadd (fadd (fmul (F.fin 7) fa) (fmul (F.fin 32) f2))
        (fmul (F.fin 12) f3)) (fmul (F.fin 32) f4)) (fmul (F.fin 7) fb)))
    45

/-- The driver's `start` index: skip the leading subinterval when the
first breakpoint is `-Inf` (integrator.go lines 45–50). -/
def panelStart (pts : List F) : Nat :=
  if isNInf (pget pts 0) then 2 else 1

/-- The driver's `end` index: drop the trailing breakpoint when it is
`+Inf` (integrator.go lines 46–54). -/
def panelEnd (pts : List F) : Nat :=
  if isPInf (pget pts (pts.length - 1)) then pts.length - 1 else pts.length

/-- The Go slice `l[s:e]`. -/
def goSlice (l : List F) (s e : Nat) : List F := (l.drop s).take (e - s)

/-- Adjacent pairs of a list: the `(L, R)` pairs traversed by
`L := points[start-1]; for _, R := range points[start:end]`. -/
def adjPairs : List F → List (F × F)
  | [] => []
  | [_] => []
  | x :: y :: rest => (x, y) :: adjPairs (y :: rest)

/-- The `(L, R)` pairs the driver passes to `boolesrule` in one
iteration: adjacent pairs of `points[start-1 : end]`. -/
def panelPairs (pts : List F) : List (F × F) :=
  adjPairs (goSlice pts (panelStart pts - 1) (panelEnd pts))

/-- One iteration's `refined` sum: `refined := 0.0` followed by
`refined += boolesrule(f, L, R)` over the panel pairs in order. -/
def refinedSum (f : F → F) (pts : List F) : F :=
  (panelPairs pts).foldl (fun acc LR => fadd acc (boolesrule f LR.1 LR.2)) (F.fin 0)

/-- The `for !done` loop of `Integrate` (integrator.go lines 40–73),
with explicit fuel; `none` means the loop has not returned within
`fuel` iterations. -/
def integrateLoop (f : F → F) (err : F) : List F → F → Nat → Option F
  | _, _, 0 => none
  | pts, ret, fuel+1 =>
    let pts' := refinedPoints pts
    let refined := refinedSum f pts'
    if isPInf ret ∧ isPInf refined then some ret
    else if isNInf ret ∧ isNInf refined then some ret
    else if flt (fabs (fsub ret refined)) err then some refined
    else integrateLoop f err pts' refined fuel

/-- `Integrate` (integrator.go lines 28–76). -/
def Integrate (f : F → F) (a b err : F) (fuel : Nat) : Option F :=
  let ret := if isNInf a ∨ isPInf b then F.pinf else boolesrule f a b
  integrateLoop f err [a, b] ret fuel

/-- The breakpoint sequences the driver iterates over: `iterPts a b 0 =
[a, b]`, and each loop iteration refines the previous sequence. -/
def iterPts (a b : F) : Nat → List F
  | 0 => [a, b]
  | k+1 => refinedPoints (iterPts a b k)

/-- Sanity check of the embedding on a concrete input. -/
theorem sanity_refine_finite_example : refinedPoints [F.fin 0, F.fin 2, F.fin 4] =
    [F.fin 0, F.fin 1, F.fin 2, F.fin 3, F.fin 4] := by decide

/-- Sanity check of the embedding on a concrete input. -/
theorem sanity_refine_ninf_neg : refinedPoints [F.ninf, F.fin (-1)] = [F.ninf, F.ninf, F.fin (-1)] := by
  decide

/-- Sanity check of the embedding on a concrete input. -/
theorem sanity_refine_doubly_inf : refinedPoints [F.ninf, F.pinf] = [F.ninf, F.fin 0, F.pinf] := by decide

/-- Sanity check of the embedding on a concrete input. -/
theorem sanity_refine_doubly_inf_twice : refinedPoints (refinedPoints [F.ninf, F.pinf]) =
    [F.ninf, F.fin 0, F.fin 0, F.fin 0, F.pinf] := by decide

/-- Sanity check of the embedding on a concrete input. -/
theorem sanity_refine_pinf_pos : refinedPoints [F.fin 5, F.pinf] = [F.fin 5, F.fin 10, F.pinf] := by
  decide

/-- Sanity check of the embedding on a concrete input. -/
theorem sanity_refine_ninf_zero : refinedPoints [F.ninf, F.fin 0] = [F.ninf, F.fin (-1), F.fin 0] := by
  decide

/-- Sanity check of the embedding on a concrete input. -/
theorem sanity_refine_ninf_general :
    refinedPoints [F.ninf, F.fin (-2), F.fin (-1), F.fin (mkRat (-1) 2), F.fin 0] =
    [F.ninf, F.fin (-4), F.fin (-2), F.fin (mkRat (-3) 2), F.fin (-1),
      F.fin (mkRat (-3) 4), F.fin (mkRat (-1) 2), F.fin (mkRat (-1) 4), F.fin 0] := by
  decide

/-- Sanity check of the embedding on a concrete input. -/
theorem sanity_panelPairs_skip_ninf : panelPairs [F.ninf, F.ninf, F.fin (-1)] = [(F.ninf, F.fin (-1))] := by
  decide

/-- Sanity check of the embedding on a concrete input. -/
theorem sanity_panelPairs_all_skipped : panelPairs [F.ninf, F.fin 0, F.pinf] = [] := by decide

/-- Sanity check of the embedding on a concrete input. -/
theorem sanity_integrate_ninf_const : Integrate (fun _ => F.fin 1) F.ninf (F.fin (-1)) (F.fin 1) 1 =
    some F.pinf := by decide

/-! ## Index characterisation of `refinedPoints` -/

theorem pget_range_map (g : Nat → F) (m k : Nat) (hk : k < m) :
    pget ((List.range m).map g) k = g k := by
  simp [pget, List.getD_eq_getElem?_getD, List.getElem?_map, List.getElem?_range hk]

theorem pget_range_map_oob (g : Nat → F) (m k : Nat) (hk : ¬ k < m) :
    pget ((List.range m).map g) k = F.nan := by
  simp [pget, List.getD_eq_getElem?_getD, List.getElem?_map]
  rw [List.getElem?_eq_none (by simpa using Nat.le_of_not_lt hk)]
  rfl

theorem length_refinedPoints (pts : List F) :
    (refinedPoints pts).length = 2 * pts.length - 1 := by
  unfold refinedPoints
  split
  next h1 => simp [h1.1]
  next =>
    split
    next h2 => simp [h2.1]
    next =>
      split
      next h3 => simp [h3.1]
      next => simp

theorem midWrites_untouched (pts : List F) (cnt : Nat) :
    ∀ (i : Nat) (g : Nat → F) (k : Nat),
      (∀ j, i ≤ j → j < i + cnt → k ≠ 2*j ∧ k ≠ 2*j+1) →
      midWrites pts i cnt g k = g k := by
  induction cnt with
  | zero => intro i g k _; rfl
  | succ c ih =>
    intro i g k hk
    rw [midWrites]
    rw [ih (i+1) _ k (fun j hj1 hj2 => hk j (by omega) (by omega))]
    have h1 := hk i (le_refl i) (by omega)
    rw [upd_other _ _ _ _ h1.2, upd_other _ _ _ _ h1.1]

theorem midWrites_even (pts : List F) (cnt : Nat) :
    ∀ (i : Nat) (g : Nat → F) (j : Nat), i ≤ j → j < i + cnt →
      midWrites pts i cnt g (2*j) = pget pts j := by
  induction cnt with
  | zero => intro i g j h1 h2; omega
  | succ c ih =>
    intro i g j h1 h2
    rcases eq_or_lt_of_le h1 with rfl | hlt
    · rw [midWrites]
      rw [midWrites_untouched pts c (i+1) _ (2*i) (fun j' hj1 hj2 => by omega)]
      rw [upd_other _ _ _ _ (by omega), upd_same]
    · rw [midWrites]
      exact ih (i+1) _ j hlt (by omega)

theorem midWrites_odd (pts : List F) (cnt : Nat) :
    ∀ (i : Nat) (g : Nat → F) (j : Nat), i ≤ j → j < i + cnt →
      midWrites pts i cnt g (2*j+1) =
        fdivPos (fadd (pget pts j) (pget pts (j+1))) 2 := by
  induction cnt with
  | zero => intro i g j h1 h2; omega
  | succ c ih =>
    intro i g j h1 h2
    rcases eq_or_lt_of_le h1 with rfl | hlt
    · rw [midWrites]
      rw [midWrites_untouched pts c (i+1) _ (2*i+1) (fun j' hj1 hj2 => by omega)]
      rw [upd_same]
    · rw [midWrites]
      exact ih (i+1) _ j hlt (by omega)

theorem rp_general (pts : List F) (h3 : 3 ≤ pts.length) :
    refinedPoints pts = (List.range (2 * pts.length - 1)).map (mkRefined pts) := by
  unfold refinedPoints
  split
  next h1 => exact absurd h1.1 (by omega)
  next =>
    split
    next h1 => exact absurd h1.1 (by omega)
    next =>
      split
      next h1 => exact absurd h1.1 (by omega)
      next => rfl

theorem mkRefined_zero (pts : List F) (h3 : 3 ≤ pts.length) :
    mkRefined pts 0 = pget pts 0 := by
  simp only [mkRefined]
  split
  all_goals
    rw [upd_other _ _ _ _ (by omega : (0:Nat) ≠ 2*pts.length-2-2),
      upd_other _ _ _ _ (by omega : (0:Nat) ≠ 2*pts.length-2-1),
      upd_other _ _ _ _ (by omega : (0:Nat) ≠ 2*pts.length-2),
      midWrites_untouched pts (pts.length-3) 1 _ 0 (by intro j h1 h2; omega)]
  all_goals split
  all_goals simp [upd]

theorem mkRefined_one (pts : List F) (h3 : 3 ≤ pts.length) :
    mkRefined pts 1 =
      (if isNInf (pget pts 0) then fmul (pget pts 1) (F.fin 2)
        else fdivPos (fadd (pget pts 0) (pget pts 1)) 2) := by
  simp only [mkRefined]
  split
  all_goals
    rw [upd_other _ _ _ _ (by omega : (1:Nat) ≠ 2*pts.length-2-2),
      upd_other _ _ _ _ (by omega : (1:Nat) ≠ 2*pts.length-2-1),
      upd_other _ _ _ _ (by omega : (1:Nat) ≠ 2*pts.length-2),
      midWrites_untouched pts (pts.length-3) 1 _ 1 (by intro j h1 h2; omega)]
  all_goals split
  all_goals simp [upd]

theorem mkRefined_even (pts : List F) (h3 : 3 ≤ pts.length) (j : Nat)
    (hj1 : 1 ≤ j) (hj2 : j ≤ pts.length - 3) :
    mkRefined pts (2*j) = pget pts j := by
  simp only [mkRefined]
  split
  all_goals
    rw [upd_other _ _ _ _ (by omega : 2*j ≠ 2*pts.length-2-2),
      upd_other _ _ _ _ (by omega : 2*j ≠ 2*pts.length-2-1),
      upd_other _ _ _ _ (by omega : 2*j ≠ 2*pts.length-2),
      midWrites_even pts (pts.length-3) 1 _ j hj1 (by omega)]

theorem mkRefined_odd (pts : List F) (h3 : 3 ≤ pts.length) (j : Nat)
    (hj1 : 1 ≤ j) (hj2 : j ≤ pts.length - 3) :
    mkRefined pts (2*j+1) = fdivPos (fadd (pget pts j) (pget pts (j+1))) 2 := by
  simp only [mkRefined]
  split
  all_goals
    rw [upd_other _ _ _ _ (by omega : 2*j+1 ≠ 2*pts.length-2-2),
      upd_other _ _ _ _ (by omega : 2*j+1 ≠ 2*pts.length-2-1),
      upd_other _ _ _ _ (by omega : 2*j+1 ≠ 2*pts.length-2),
      midWrites_odd pts (pts.length-3) 1 _ j hj1 (by omega)]

theorem mkRefined_r2 (pts : List F) (h3 : 3 ≤ pts.length) :
    mkRefined pts (2*pts.length-2-2) = pget pts (pts.length - 2) := by
  simp only [mkRefined]
  split
  all_goals rw [upd_same]
  all_goals
    have he : pts.length - 1 - 1 = pts.length - 2 := by omega
    rw [he]

theorem mkRefined_rmid (pts : List F) (h3 : 3 ≤ pts.length) :
    mkRefined pts (2*pts.length-2-1) =
      (if isPInf (pget pts (pts.length - 1)) then fmul (pget pts (pts.length - 2)) (F.fin 2)
        else fdivPos (fadd (pget pts (pts.length - 1)) (pget pts (pts.length - 2))) 2) := by
  simp only [mkRefined]
  have he : pts.length - 1 - 1 = pts.length - 2 := by omega
  split
  all_goals
    rw [upd_other _ _ _ _ (by omega : 2*pts.length-2-1 ≠ 2*pts.length-2-2),
      upd_same, he]

theorem mkRefined_last (pts : List F) (h3 : 3 ≤ pts.length) :
    mkRefined pts (2*pts.length-2) = pget pts (pts.length - 1) := by
  simp only [mkRefined]
  split
  all_goals
    rw [upd_other _ _ _ _ (by omega : 2*pts.length-2 ≠ 2*pts.length-2-2),
      upd_other _ _ _ _ (by omega : 2*pts.length-2 ≠ 2*pts.length-2-1),
      upd_same]

theorem fadd_comm (a b : F) : fadd a b = fadd b a := by
  cases a <;> cases b <;> simp [fadd, qadd_eq, add_comm]

theorem pget_cons_zero (x : F) (l : List F) : pget (x :: l) 0 = x := rfl

theorem pget_cons_succ (x : F) (l : List F) (i : Nat) :
    pget (x :: l) (i+1) = pget l i := rfl

theorem pget_nil (i : Nat) : pget [] i = F.nan := rfl

/-- Strict increase of a breakpoint sequence, chained with the IEEE `<`. -/
def incrB : List F → Bool
  | [] => true
  | [_] => true
  | x :: y :: rest => flt x y && incrB (y :: rest)

theorem incrB_adj (pts : List F) (hinc : incrB pts = true) :
    ∀ i, i + 1 < pts.length → flt (pget pts i) (pget pts (i+1)) = true := by
  induction pts with
  | nil => intro i hi; simp at hi
  | cons x l ih =>
    intro i hi
    cases l with
    | nil => simp at hi
    | cons y rest =>
      rw [incrB] at hinc
      rcases Bool.and_eq_true_iff.mp hinc with ⟨h1, h2⟩
      cases i with
      | zero => exact h1
      | succ j =>
        rw [pget_cons_succ, pget_cons_succ]
        exact ih h2 j (by simpa using hi)

theorem flt_right_ninf (x : F) : flt x F.ninf = false := by
  cases x <;> rfl

theorem flt_right_nan (x : F) : flt x F.nan = false := by
  cases x <;> rfl

theorem flt_pinf_left (x : F) : flt F.pinf x = false := by
  cases x <;> rfl

theorem flt_nan_left (x : F) : flt F.nan x = false := by
  cases x <;> rfl

theorem incrB_finite (pts : List F) (hinc : incrB pts = true)
    (hf : isFinite (pget pts 0) = true)
    (hl : isFinite (pget pts (pts.length - 1)) = true) :
    ∀ i, i < pts.length → isFinite (pget pts i) = true := by
  intro i hi
  cases hv : pget pts i with
  | fin q => rfl
  | pinf =>
    rcases Nat.lt_or_ge i (pts.length - 1) with h | h
    · have := incrB_adj pts hinc i (by omega)
      rw [hv, flt_pinf_left] at this
      exact absurd this (by simp)
    · have : i = pts.length - 1 := by omega
      rw [this] at hv
      rw [hv] at hl
      exact absurd hl (by simp [isFinite])
  | ninf =>
    cases i with
    | zero => rw [hv] at hf; exact absurd hf (by simp [isFinite])
    | succ j =>
      have := incrB_adj pts hinc j (by omega)
      rw [hv, flt_right_ninf] at this
      exact absurd this (by simp)
  | nan =>
    cases i with
    | zero => rw [hv] at hf; exact absurd hf (by simp [isFinite])
    | succ j =>
      have := incrB_adj pts hinc j (by omega)
      rw [hv, flt_right_nan] at this
      exact absurd this (by simp)

theorem rp_get_even (pts : List F) (h3 : 3 ≤ pts.length) (i : Nat)
    (hi : i < pts.length) :
    pget (refinedPoints pts) (2*i) = pget pts i := by
  rw [rp_general pts h3, pget_range_map _ _ _ (by omega)]
  rcases Nat.lt_or_ge i 1 with h | h
  · have hz : i = 0 := by omega
    subst hz
    simpa using mkRefined_zero pts h3
  · rcases Nat.lt_or_ge i (pts.length - 2) with h2 | h2
    · exact mkRefined_even pts h3 i h (by omega)
    · rcases Nat.lt_or_ge i (pts.length - 1) with h4 | h4
      · have he : 2*i = 2*pts.length-2-2 := by omega
        rw [he, mkRefined_r2 pts h3, show pts.length - 2 = i by omega]
      · have he : 2*i = 2*pts.length-2 := by omega
        rw [he, mkRefined_last pts h3, show pts.length - 1 = i by omega]

theorem rp_get_odd (pts : List F) (h3 : 3 ≤ pts.length)
    (hn : isNInf (pget pts 0) = false)
    (hp : isPInf (pget pts (pts.length - 1)) = false)
    (i : Nat) (hi : i < pts.length - 1) :
    pget (refinedPoints pts) (2*i+1) =
      fdivPos (fadd (pget pts i) (pget pts (i+1))) 2 := by
  rw [rp_general pts h3, pget_range_map _ _ _ (by omega)]
  rcases Nat.lt_or_ge i 1 with h | h
  · have hz : i = 0 := by omega
    subst hz
    have := mkRefined_one pts h3
    rw [hn] at this
    simpa using this
  · rcases Nat.lt_or_ge i (pts.length - 2) with h2 | h2
    · exact mkRefined_odd pts h3 i h (by omega)
    · have he : 2*i+1 = 2*pts.length-2-1 := by omega
      rw [he, mkRefined_rmid pts h3, hp]
      rw [show pts.length - 2 = i by omega, show pts.length - 1 = i + 1 by omega]
      simp [fadd_comm]
theorem isFinite_exists (v : F) (h : isFinite v = true) : ∃ q : ℚ, v = F.fin q := by
  cases v <;> simp [isFinite] at h ⊢

theorem isFinite_not_ninf (v : F) (h : isFinite v = true) : isNInf v = false := by
  cases v <;> simp [isFinite, isNInf] at h ⊢

theorem isFinite_not_pinf (v : F) (h : isFinite v = true) : isPInf v = false := by
  cases v <;> simp [isFinite, isPInf] at h ⊢

theorem rp_pair_fin (a b : ℚ) :
    refinedPoints [F.fin a, F.fin b] = [F.fin a, F.fin ((a+b)/2), F.fin b] := by
  rw [refinedPoints]
  rw [if_neg (by simp [pget, isNInf]), if_neg (by simp [pget, isNInf]),
    if_neg (by simp [pget, isPInf]),
    show ([F.fin a, F.fin b] : List F).length = 2 from rfl,
    show List.range (2 * 2 - 1) = [0, 1, 2] by decide]
  simp only [List.map_cons, List.map_nil]
  rw [show mkRefined [F.fin a, F.fin b] 0 = F.fin a by
      simp [mkRefined, upd, pget, midWrites, isNInf, isPInf],
    show mkRefined [F.fin a, F.fin b] 2 = F.fin b by
      simp [mkRefined, upd, pget, midWrites, isNInf, isPInf]]
  rw [show mkRefined [F.fin a, F.fin b] 1 =
      fdivPos (fadd (F.fin b) (F.fin a)) 2 by
    simp [mkRefined, upd, pget, midWrites, isNInf, isPInf]]
  rw [fadd_fin, fdivPos_fin _ _ (by norm_num)]
  ring_nf
/-- **C4**: for every strictly increasing breakpoint sequence of length
`n ≥ 2` with finite endpoints, `refinedPoints` returns a sequence of
length `2n − 1` whose element at each even index `2i` is `p[i]` and
whose element at each odd index `2i+1` is the exact midpoint
`(p[i] + p[i+1]) / 2`. -/
theorem C4_refinement_doubling (pts : List F) (hlen : 2 ≤ pts.length)
    (hinc : incrB pts = true)
    (hf : isFinite (pget pts 0) = true)
    (hl : isFinite (pget pts (pts.length - 1)) = true) :
    (refinedPoints pts).length = 2 * pts.length - 1 ∧
    (∀ i, i < pts.length → pget (refinedPoints pts) (2*i) = pget pts i) ∧
    (∀ i, i < pts.length - 1 → ∃ x y : ℚ, pget pts i = F.fin x ∧
      pget pts (i+1) = F.fin y ∧
      pget (refinedPoints pts) (2*i+1) = F.fin ((x+y)/2)) := by
  refine ⟨length_refinedPoints pts, ?_, ?_⟩
  all_goals rcases Nat.lt_or_ge pts.length 3 with h2 | h3
  case inl =>
    -- length exactly 2
    match pts, hlen, h2, hinc, hf, hl with
    | [x, y], _, _, hinc, hf, hl =>
      obtain ⟨a, rfl⟩ := isFinite_exists x (by simpa [pget] using hf)
      obtain ⟨b, rfl⟩ := isFinite_exists y (by simpa [pget] using hl)
      intro i hi
      rw [rp_pair_fin a b]
      match i, hi with
      | 0, _ => rfl
      | 1, _ => rfl
  case inr =>
    intro i hi
    exact rp_get_even pts h3 i hi
  case inl =>
    match pts, hlen, h2, hinc, hf, hl with
    | [x, y], _, _, hinc, hf, hl =>
      obtain ⟨a, rfl⟩ := isFinite_exists x (by simpa [pget] using hf)
      obtain ⟨b, rfl⟩ := isFinite_exists y (by simpa [pget] using hl)
      intro i hi
      match i, hi with
      | 0, _ =>
        refine ⟨a, b, rfl, rfl, ?_⟩
        rw [rp_pair_fin a b]
        rfl
  case inr =>
    intro i hi
    have hfin := incrB_finite pts hinc hf hl
    obtain ⟨x, hx⟩ := isFinite_exists _ (hfin i (by omega))
    obtain ⟨y, hy⟩ := isFinite_exists _ (hfin (i+1) (by omega))
    refine ⟨x, y, hx, hy, ?_⟩
    rw [rp_get_odd pts h3 (isFinite_not_ninf _ hf) (isFinite_not_pinf _ hl) i hi,
      hx, hy, fadd_fin, fdivPos_fin _ _ (by norm_num)]

/-- Witness for C4 at the spec's own example `[0, 2, 4]`. -/
theorem C4_refinement_doubling_witness :
    (refinedPoints [F.fin 0, F.fin 2, F.fin 4]).length = 5 ∧
    pget (refinedPoints [F.fin 0, F.fin 2, F.fin 4]) 4 = F.fin 4 ∧
    pget (refinedPoints [F.fin 0, F.fin 2, F.fin 4]) 3 = F.fin 3 := by
  have h := C4_refinement_doubling [F.fin 0, F.fin 2, F.fin 4]
    (by norm_num) (by decide) (by decide) (by decide)
  refine ⟨?_, ?_, ?_⟩
  · rw [h.1]
    rfl
  · have h4 := h.2.1 2 (by norm_num)
    norm_num at h4
    rw [h4]
    rfl
  · obtain ⟨x, y, hx, hy, hv⟩ := h.2.2 1 (by norm_num)
    have hx2 : x = 2 := by
      have : F.fin 2 = F.fin x := hx
      cases this
      rfl
    have hy2 : y = 4 := by
      have : F.fin 4 = F.fin y := hy
      cases this
      rfl
    rw [hx2, hy2] at hv
    norm_num at hv
    exact hv
/-- **C7 counterexample**: on the two-point input `[-Inf, -1]` (left
endpoint `-Inf`, right endpoint `< 0`) the fall-through path does not
produce the general doubling of the existing finite point (`[-Inf, -2,
-1]`); the right-endpoint block overwrites the interior slot with
`(-1 + -Inf)/2 = -Inf`, so the result is `[-Inf, -Inf, -1]`. -/
theorem C7_counterexample :
    refinedPoints [F.ninf, F.fin (-1)] = [F.ninf, F.ninf, F.fin (-1)] ∧
    ¬ refinedPoints [F.ninf, F.fin (-1)] = [F.ninf, F.fin (-2), F.fin (-1)] := by
  decide

/-- **C7 (amended)**: on a two-point sequence, `refinedPoints` inserts
`0` when both endpoints are infinite, `-1` when only the left is
`-Inf` and the right is `≥ 0`, `1` when only the right is `+Inf` and
the left is `≤ 0`; in the remaining cases it falls through to the
general write sequence, which produces the midpoint `(a+b)/2` for two
finite points, `[a, a·2, +Inf]` for a finite `a > 0` with right
endpoint `+Inf`, but `[-Inf, -Inf, b]` for a finite `b < 0` with left
endpoint `-Inf` (the doubled point `b·2` is overwritten by
`(b + -Inf)/2 = -Inf`). -/
theorem C7_bootstrap_cases (a b : ℚ) :
    refinedPoints [F.ninf, F.pinf] = [F.ninf, F.fin 0, F.pinf] ∧
    (0 ≤ b → refinedPoints [F.ninf, F.fin b] = [F.ninf, F.fin (-1), F.fin b]) ∧
    (a ≤ 0 → refinedPoints [F.fin a, F.pinf] = [F.fin a, F.fin 1, F.pinf]) ∧
    refinedPoints [F.fin a, F.fin b] = [F.fin a, F.fin ((a+b)/2), F.fin b] ∧
    (b < 0 → refinedPoints [F.ninf, F.fin b] = [F.ninf, F.ninf, F.fin b]) ∧
    (0 < a → refinedPoints [F.fin a, F.pinf] = [F.fin a, F.fin (a*2), F.pinf]) := by
  refine ⟨by decide, ?_, ?_, rp_pair_fin a b, ?_, ?_⟩
  · intro hb
    rw [refinedPoints]
    rw [if_neg (by simp [pget, isPInf])]
    rw [if_pos (by simp [pget, isNInf, fle, hb])]
    rfl
  · intro ha
    rw [refinedPoints]
    rw [if_neg (by simp [pget, isNInf])]
    rw [if_neg (by simp [pget, isNInf])]
    rw [if_pos (by simp [pget, isPInf, fle, ha])]
    rfl
  · intro hb
    rw [refinedPoints]
    rw [if_neg (by simp [pget, isPInf])]
    rw [if_neg (by simp [pget, isNInf, fle, not_le.mpr hb])]
    rw [if_neg (by simp [pget, isPInf])]
    rw [show ([F.ninf, F.fin b] : List F).length = 2 from rfl,
      show List.range (2 * 2 - 1) = [0, 1, 2] by decide]
    simp only [List.map_cons, List.map_nil]
    rw [show mkRefined [F.ninf, F.fin b] 0 = F.ninf by
        simp [mkRefined, upd, pget, midWrites, isNInf, isPInf],
      show mkRefined [F.ninf, F.fin b] 1 = F.ninf by
        simp [mkRefined, upd, pget, midWrites, isNInf, isPInf, fadd, fdivPos],
      show mkRefined [F.ninf, F.fin b] 2 = F.fin b by
        simp [mkRefined, upd, pget, midWrites, isNInf, isPInf]]
  · intro ha
    rw [refinedPoints]
    rw [if_neg (by simp [pget, isNInf])]
    rw [if_neg (by simp [pget, isNInf])]
    rw [if_neg (by simp [pget, fle, not_le.mpr ha])]
    rw [show ([F.fin a, F.pinf] : List F).length = 2 from rfl,
      show List.range (2 * 2 - 1) = [0, 1, 2] by decide]
    simp only [List.map_cons, List.map_nil]
    rw [show mkRefined [F.fin a, F.pinf] 0 = F.fin a by
        simp [mkRefined, upd, pget, midWrites, isNInf, isPInf],
      show mkRefined [F.fin a, F.pinf] 1 = fmul (F.fin a) (F.fin 2) by
        simp [mkRefined, upd, pget, midWrites, isNInf, isPInf],
      show mkRefined [F.fin a, F.pinf] 2 = F.pinf by
        simp [mkRefined, upd, pget, midWrites, isNInf, isPInf],
      fmul_fin]

/-- Witness for C7 at `a = 1`, `b = -1`. -/
theorem C7_bootstrap_cases_witness :
    refinedPoints [F.fin 1, F.pinf] = [F.fin 1, F.fin (1*2), F.pinf] ∧
    refinedPoints [F.ninf, F.fin (-1)] = [F.ninf, F.ninf, F.fin (-1)] := by
  exact ⟨(C7_bootstrap_cases 1 (-1)).2.2.2.2.2 (by norm_num),
    (C7_bootstrap_cases 1 (-1)).2.2.2.2.1 (by norm_num)⟩

/-- **C6**: inside the refinement loop, if the previous estimate `ret`
and the freshly computed sum `refined` are both `+Inf`, the loop
returns `+Inf` immediately (in that very iteration, whatever fuel
remains); symmetrically for `-Inf`. -/
theorem C6_divergence_shortcircuit (f : F → F) (err : F) (pts : List F)
    (ret : F) (fuel : Nat)
    (h : (ret = F.pinf ∧ refinedSum f (refinedPoints pts) = F.pinf) ∨
      (ret = F.ninf ∧ refinedSum f (refinedPoints pts) = F.ninf)) :
    integrateLoop f err pts ret (fuel+1) = some ret := by
  rcases h with ⟨h1, h2⟩ | ⟨h1, h2⟩ <;>
    simp [integrateLoop, h1, h2, isPInf, isNInf]

/-- Witness for C6: a constant-`+Inf` integrand on `[0, 1]` with
previous estimate `+Inf`. -/
theorem C6_divergence_shortcircuit_witness :
    integrateLoop (fun _ => F.pinf) (F.fin 1) [F.fin 0, F.fin 1] F.pinf 1 =
      some F.pinf := by
  exact C6_divergence_shortcircuit (fun _ => F.pinf) (F.fin 1) [F.fin 0, F.fin 1]
    F.pinf 0 (Or.inl ⟨rfl, by decide⟩)
theorem fdivPos_fin4 (p : ℚ) : fdivPos (F.fin p) 4 = F.fin (p/4) :=
  fdivPos_fin p 4 (by norm_num)

theorem fdivPos_fin45 (p : ℚ) : fdivPos (F.fin p) 45 = F.fin (p/45) :=
  fdivPos_fin p 45 (by norm_num)

theorem fdivPos_fin2 (p : ℚ) : fdivPos (F.fin p) 2 = F.fin (p/2) :=
  fdivPos_fin p 2 (by norm_num)

theorem integrateLoop_succ (f : F → F) (err : F) (pts : List F) (ret : F)
    (fuel : Nat) :
    integrateLoop f err pts ret (fuel+1) =
      (if isPInf ret ∧ isPInf (refinedSum f (refinedPoints pts)) then some ret
      else if isNInf ret ∧ isNInf (refinedSum f (refinedPoints pts)) then some ret
      else if flt (fabs (fsub ret (refinedSum f (refinedPoints pts)))) err then
        some (refinedSum f (refinedPoints pts))
      else integrateLoop f err (refinedPoints pts)
        (refinedSum f (refinedPoints pts)) fuel) := rfl

theorem integrateLoop_zero (f : F → F) (err : F) (pts : List F) (ret : F) :
    integrateLoop f err pts ret 0 = none := rfl

/-- On a zero-width panel `[a, a]` with a finite integrand value at `a`,
Boole's rule returns exactly `0` (the step `h` is `0`). -/
theorem boolesrule_zero_width (f : F → F) (a c : ℚ) (hc : f (F.fin a) = F.fin c) :
    boolesrule f (F.fin a) (F.fin a) = F.fin 0 := by
  simp [boolesrule, fsub_fin, fadd_fin, fmul_fin, fdivPos_fin4, fdivPos_fin45, hc]

/-- **C10**: for finite `a = b` and an integrand finite at `a`,
`Integrate(f, a, a, tol)` with `tol > 0` returns exactly `0` after a
single refinement iteration (any fuel `≥ 1` suffices and gives the
same result). -/
theorem C10_zero_width_interval (f : F → F) (a c tol : ℚ)
    (hc : f (F.fin a) = F.fin c) (htol : 0 < tol) (fuel : Nat) :
    Integrate f (F.fin a) (F.fin a) (F.fin tol) (fuel+1) = some (F.fin 0) := by
  have hbr := boolesrule_zero_width f a c hc
  have hrp : refinedPoints [F.fin a, F.fin a] = [F.fin a, F.fin a, F.fin a] := by
    rw [rp_pair_fin, show (a+a)/2 = a by ring]
  have hsum : refinedSum f (refinedPoints [F.fin a, F.fin a]) = F.fin 0 := by
    rw [hrp]
    simp [refinedSum, panelPairs, panelStart, panelEnd, goSlice, adjPairs, pget,
      isNInf, isPInf, hbr, fadd_fin]
  rw [Integrate]
  rw [if_neg (by simp [isNInf, isPInf])]
  rw [integrateLoop_succ, hsum, hbr]
  rw [if_neg (by simp [isPInf]), if_neg (by simp [isNInf])]
  rw [if_pos]
  simp [fsub_fin, fabs_fin, flt, htol]

/-- Witness for C10: the constant integrand `5` on the interval `[2, 2]`. -/
theorem C10_zero_width_interval_witness :
    Integrate (fun _ => F.fin 5) (F.fin 2) (F.fin 2) (F.fin 1) 1 =
      some (F.fin 0) := by
  exact C10_zero_width_interval (fun _ => F.fin 5) 2 5 1 rfl (by norm_num) 0
theorem isNInf_eq (v : F) (h : isNInf v = true) : v = F.ninf := by
  cases v <;> simp [isNInf] at h ⊢

theorem isPInf_eq (v : F) (h : isPInf v = true) : v = F.pinf := by
  cases v <;> simp [isPInf] at h ⊢

theorem flt_fin_fin (x y : ℚ) : flt (F.fin x) (F.fin y) = true ↔ x < y := by
  simp [flt]

theorem flt_left_classes (v w : F) (h : flt v w = true) :
    v = F.ninf ∨ ∃ x : ℚ, v = F.fin x := by
  cases v with
  | fin x => exact Or.inr ⟨x, rfl⟩
  | ninf => exact Or.inl rfl
  | pinf => rw [flt_pinf_left] at h; exact absurd h (by simp)
  | nan => rw [flt_nan_left] at h; exact absurd h (by simp)

theorem flt_right_classes (v w : F) (h : flt v w = true) :
    w = F.pinf ∨ ∃ x : ℚ, w = F.fin x := by
  cases w with
  | fin x => exact Or.inr ⟨x, rfl⟩
  | pinf => exact Or.inl rfl
  | ninf => rw [flt_right_ninf] at h; exact absurd h (by simp)
  | nan => rw [flt_right_nan] at h; exact absurd h (by simp)

theorem fmul_fin2 (q : ℚ) : fmul (F.fin q) (F.fin 2) = F.fin (q*2) := fmul_fin q 2

theorem mid_fin (x y : ℚ) :
    fdivPos (fadd (F.fin x) (F.fin y)) 2 = F.fin ((x+y)/2) := by
  rw [fadd_fin, fdivPos_fin2]

theorem incrB_of_adj (pts : List F)
    (h : ∀ i, i + 1 < pts.length → flt (pget pts i) (pget pts (i+1)) = true) :
    incrB pts = true := by
  induction pts with
  | nil => rfl
  | cons x l ih =>
    cases l with
    | nil => rfl
    | cons y rest =>
      rw [incrB, Bool.and_eq_true_iff]
      refine ⟨h 0 (by simp), ih ?_⟩
      intro i hi
      have := h (i+1) (by simpa using hi)
      simpa [pget_cons_succ] using this

theorem rp_get_one_if (pts : List F) (h3 : 3 ≤ pts.length) :
    pget (refinedPoints pts) 1 =
      (if isNInf (pget pts 0) then fmul (pget pts 1) (F.fin 2)
        else fdivPos (fadd (pget pts 0) (pget pts 1)) 2) := by
  rw [rp_general pts h3, pget_range_map _ _ _ (by omega)]
  exact mkRefined_one pts h3

theorem rp_get_rmid_if (pts : List F) (h3 : 3 ≤ pts.length) :
    pget (refinedPoints pts) (2*pts.length-3) =
      (if isPInf (pget pts (pts.length - 1)) then
        fmul (pget pts (pts.length - 2)) (F.fin 2)
      else fdivPos (fadd (pget pts (pts.length - 1)) (pget pts (pts.length - 2))) 2) := by
  rw [rp_general pts h3, pget_range_map _ _ _ (by omega),
    show 2*pts.length-3 = 2*pts.length-2-1 by omega]
  exact mkRefined_rmid pts h3

theorem rp_get_odd_mid (pts : List F) (h3 : 3 ≤ pts.length) (j : Nat)
    (hj1 : 1 ≤ j) (hj2 : j ≤ pts.length - 3) :
    pget (refinedPoints pts) (2*j+1) =
      fdivPos (fadd (pget pts j) (pget pts (j+1))) 2 := by
  rw [rp_general pts h3, pget_range_map _ _ _ (by omega)]
  exact mkRefined_odd pts h3 j hj1 hj2

/-- The driver-state invariant maintained by every refinement step once
the sequence has at least 3 points: endpoints preserved, strictly
increasing, interior finite, and a sign condition on the breakpoint
adjacent to an infinite endpoint. -/
structure SInv (a b : F) (pts : List F) : Prop where
  hlen : 3 ≤ pts.length
  hfirst : pget pts 0 = a
  hlast : pget pts (pts.length - 1) = b
  hadj : ∀ i, i + 1 < pts.length → flt (pget pts i) (pget pts (i+1)) = true
  hint : ∀ i, 1 ≤ i → i ≤ pts.length - 2 → ∃ q : ℚ, pget pts i = F.fin q
  hneg : a = F.ninf → ∃ q : ℚ, pget pts 1 = F.fin q ∧ q < 0
  hpos : b = F.pinf → ∃ q : ℚ, pget pts (pts.length - 2) = F.fin q ∧ 0 < q
theorem flt_ninf_fin (x : ℚ) : flt F.ninf (F.fin x) = true := rfl

theorem flt_fin_pinf (x : ℚ) : flt (F.fin x) F.pinf = true := rfl

theorem rp_step_pair (a b : F) (pts : List F) (h : SInv a b pts) (j : Nat)
    (hj : j ≤ pts.length - 2) :
    flt (pget pts j) (pget (refinedPoints pts) (2*j+1)) = true ∧
    flt (pget (refinedPoints pts) (2*j+1)) (pget pts (j+1)) = true ∧
    ∃ q : ℚ, pget (refinedPoints pts) (2*j+1) = F.fin q := by
  obtain ⟨hlen, hfirst, hlast, hadj, hint, hneg, hpos⟩ := h
  rcases Nat.lt_or_ge j 1 with hj0 | hj1
  · -- j = 0
    have hj' : j = 0 := by omega
    subst hj'
    rw [show 2*0+1 = 1 by norm_num, rp_get_one_if pts hlen]
    by_cases hni : isNInf (pget pts 0) = true
    · rw [if_pos hni]
      have ha : a = F.ninf := by rw [← hfirst]; exact isNInf_eq _ hni
      obtain ⟨q, hq, hqneg⟩ := hneg ha
      rw [isNInf_eq _ hni, hq, fmul_fin2]
      exact ⟨flt_ninf_fin _, (flt_fin_fin _ _).mpr (by linarith), q*2, rfl⟩
    · rw [if_neg hni]
      have h01 := hadj 0 (by omega)
      rcases flt_left_classes _ _ h01 with hx | ⟨x, hx⟩
      · rw [hx] at hni
        simp [isNInf] at hni
      · obtain ⟨y, hy⟩ := hint 1 (by omega) (by omega)
        rw [hx, hy] at h01
        have hxy := (flt_fin_fin _ _).mp h01
        rw [hx, hy, mid_fin]
        exact ⟨(flt_fin_fin _ _).mpr (by linarith),
          (flt_fin_fin _ _).mpr (by linarith), (x+y)/2, rfl⟩
  · rcases Nat.lt_or_ge j (pts.length - 2) with hj2 | hj2
    · -- 1 ≤ j ≤ n - 3
      obtain ⟨u, hu⟩ := hint j hj1 (by omega)
      obtain ⟨v, hv⟩ := hint (j+1) (by omega) (by omega)
      have huv := hadj j (by omega)
      rw [hu, hv] at huv
      have huv' := (flt_fin_fin _ _).mp huv
      rw [rp_get_odd_mid pts hlen j hj1 (by omega), hu, hv, mid_fin]
      exact ⟨(flt_fin_fin _ _).mpr (by linarith),
        (flt_fin_fin _ _).mpr (by linarith), (u+v)/2, rfl⟩
    · -- j = n - 2
      have hj' : j = pts.length - 2 := by omega
      subst hj'
      rw [show 2*(pts.length-2)+1 = 2*pts.length-3 by omega, rp_get_rmid_if pts hlen]
      have hlast1 : pts.length - 2 + 1 = pts.length - 1 := by omega
      by_cases hpi : isPInf (pget pts (pts.length - 1)) = true
      · rw [if_pos hpi]
        have hb : b = F.pinf := by rw [← hlast]; exact isPInf_eq _ hpi
        obtain ⟨p, hp, hppos⟩ := hpos hb
        rw [hp, fmul_fin2, hlast1, isPInf_eq _ hpi]
        exact ⟨(flt_fin_fin _ _).mpr (by linarith), flt_fin_pinf _, p*2, rfl⟩
      · rw [if_neg hpi]
        have hzp := hadj (pts.length - 2) (by omega)
        rw [hlast1] at hzp
        rcases flt_right_classes _ _ hzp with hz | ⟨z, hz⟩
        · rw [hz] at hpi
          simp [isPInf] at hpi
        · obtain ⟨p, hp⟩ := hint (pts.length - 2) (by omega) (by omega)
          rw [hp, hz] at hzp
          have hpz := (flt_fin_fin _ _).mp hzp
          rw [hp, hz, mid_fin, hlast1, hz]
          exact ⟨(flt_fin_fin _ _).mpr (by linarith),
            (flt_fin_fin _ _).mpr (by linarith), (z+p)/2, rfl⟩

theorem SInv_step (a b : F) (pts : List F) (h : SInv a b pts) :
    SInv a b (refinedPoints pts) := by
  have hm : (refinedPoints pts).length = 2 * pts.length - 1 := length_refinedPoints pts
  obtain ⟨hlen, hfirst, hlast, hadj, hint, hneg, hpos⟩ := h
  have hS : SInv a b pts := ⟨hlen, hfirst, hlast, hadj, hint, hneg, hpos⟩
  refine ⟨by omega, ?_, ?_, ?_, ?_, ?_, ?_⟩
  · have := rp_get_even pts hlen 0 (by omega)
    rw [show 2*0 = 0 by norm_num] at this
    rw [this, hfirst]
  · rw [hm, show 2*pts.length - 1 - 1 = 2*(pts.length - 1) by omega,
      rp_get_even pts hlen (pts.length - 1) (by omega), hlast]
  · intro k hk
    rw [hm] at hk
    rcases Nat.mod_two_eq_zero_or_one k with hp | hp
    · obtain ⟨j, rfl⟩ : ∃ j, k = 2*j := ⟨k/2, by omega⟩
      rw [rp_get_even pts hlen j (by omega)]
      exact (rp_step_pair a b pts hS j (by omega)).1
    · obtain ⟨j, rfl⟩ : ∃ j, k = 2*j+1 := ⟨k/2, by omega⟩
      rw [show 2*j+1+1 = 2*(j+1) by ring, rp_get_even pts hlen (j+1) (by omega)]
      exact (rp_step_pair a b pts hS j (by omega)).2.1
  · intro i hi1 hi2
    rw [hm] at hi2
    rcases Nat.mod_two_eq_zero_or_one i with hp | hp
    · obtain ⟨j, rfl⟩ : ∃ j, i = 2*j := ⟨i/2, by omega⟩
      rw [rp_get_even pts hlen j (by omega)]
      exact hint j (by omega) (by omega)
    · obtain ⟨j, rfl⟩ : ∃ j, i = 2*j+1 := ⟨i/2, by omega⟩
      exact (rp_step_pair a b pts hS j (by omega)).2.2
  · intro ha
    obtain ⟨q, hq, hqneg⟩ := hneg ha
    rw [rp_get_one_if pts hlen, if_pos (by rw [hfirst, ha]; rfl), hq, fmul_fin2]
    exact ⟨q*2, rfl, by linarith⟩
  · intro hb
    obtain ⟨p, hp, hppos⟩ := hpos hb
    rw [hm, show 2*pts.length - 1 - 2 = 2*pts.length-3 by omega,
      rp_get_rmid_if pts hlen, if_pos (by rw [hlast, hb]; rfl), hp, fmul_fin2]
    exact ⟨p*2, rfl, by linarith⟩
theorem rp_pair_ninf (b : ℚ) (hb : 0 ≤ b) :
    refinedPoints [F.ninf, F.fin b] = [F.ninf, F.fin (-1), F.fin b] := by
  rw [refinedPoints]
  rw [if_neg (by simp [pget, isPInf])]
  rw [if_pos (by simp [pget, isNInf, fle, hb])]
  rfl

theorem rp_pair_pinf_le (a : ℚ) (ha : a ≤ 0) :
    refinedPoints [F.fin a, F.pinf] = [F.fin a, F.fin 1, F.pinf] := by
  rw [refinedPoints]
  rw [if_neg (by simp [pget, isNInf])]
  rw [if_neg (by simp [pget, isNInf])]
  rw [if_pos (by simp [pget, isPInf, fle, ha])]
  rfl

theorem rp_pair_pinf_pos (a : ℚ) (ha : 0 < a) :
    refinedPoints [F.fin a, F.pinf] = [F.fin a, F.fin (a*2), F.pinf] := by
  rw [refinedPoints]
  rw [if_neg (by simp [pget, isNInf])]
  rw [if_neg (by simp [pget, isNInf])]
  rw [if_neg (by simp [pget, fle, not_le.mpr ha])]
  rw [show ([F.fin a, F.pinf] : List F).length = 2 from rfl,
    show List.range (2 * 2 - 1) = [0, 1, 2] by decide]
  simp only [List.map_cons, List.map_nil]
  rw [show mkRefined [F.fin a, F.pinf] 0 = F.fin a by
      simp [mkRefined, upd, pget, midWrites, isNInf, isPInf],
    show mkRefined [F.fin a, F.pinf] 1 = fmul (F.fin a) (F.fin 2) by
      simp [mkRefined, upd, pget, midWrites, isNInf, isPInf],
    show mkRefined [F.fin a, F.pinf] 2 = F.pinf by
      simp [mkRefined, upd, pget, midWrites, isNInf, isPInf],
    fmul_fin]

theorem SInv_of_triple (a b : F) (m : ℚ)
    (h1 : flt a (F.fin m) = true) (h2 : flt (F.fin m) b = true)
    (hmneg : a = F.ninf → m < 0) (hmpos : b = F.pinf → 0 < m) :
    SInv a b [a, F.fin m, b] := by
  refine ⟨by simp, rfl, rfl, ?_, ?_, ?_, ?_⟩
  · intro i hi
    rcases i with _ | _ | i
    · exact h1
    · exact h2
    · exfalso
      simp at hi
      omega
  · intro i hi1 hi2
    simp at hi2
    have hi3 : i = 1 := by omega
    subst hi3
    exact ⟨m, rfl⟩
  · intro ha
    exact ⟨m, rfl, hmneg ha⟩
  · intro hb
    exact ⟨m, rfl, hmpos hb⟩

theorem SInv_base (a b : F) (hab : flt a b = true)
    (hamend : a = F.ninf → ∃ q : ℚ, b = F.fin q ∧ 0 ≤ q) :
    SInv a b (refinedPoints [a, b]) := by
  rcases flt_left_classes a b hab with ha | ⟨x, hx⟩
  · obtain ⟨q, hb, hq⟩ := hamend ha
    subst ha
    subst hb
    rw [rp_pair_ninf q hq]
    refine SInv_of_triple _ _ (-1) rfl ((flt_fin_fin _ _).mpr (by linarith)) ?_ ?_
    · intro _; norm_num
    · intro hb; simp at hb
  · subst hx
    rcases flt_right_classes _ _ hab with hb | ⟨y, hy⟩
    · subst hb
      rcases le_or_lt x 0 with hx0 | hx0
      · rw [rp_pair_pinf_le x hx0]
        refine SInv_of_triple _ _ 1 ((flt_fin_fin _ _).mpr (by linarith)) rfl ?_ ?_
        · intro ha; simp at ha
        · intro _; norm_num
      · rw [rp_pair_pinf_pos x hx0]
        refine SInv_of_triple _ _ (x*2) ((flt_fin_fin _ _).mpr (by linarith)) rfl ?_ ?_
        · intro ha; simp at ha
        · intro _; linarith
    · subst hy
      have hxy := (flt_fin_fin _ _).mp hab
      rw [rp_pair_fin x y]
      refine SInv_of_triple _ _ ((x+y)/2) ((flt_fin_fin _ _).mpr (by linarith))
        ((flt_fin_fin _ _).mpr (by linarith)) ?_ ?_
      · intro ha; simp at ha
      · intro hb; simp at hb

/-- **C2 counterexample**: for `a = -Inf`, `b = +Inf` (which satisfy the
preconditions with `a < b`), the second refinement step produces
`[-Inf, 0, 0, 0, +Inf]`, which is not strictly increasing. -/
theorem C2_counterexample :
    flt F.ninf F.pinf = true ∧
    iterPts F.ninf F.pinf 2 = [F.ninf, F.fin 0, F.fin 0, F.fin 0, F.pinf] ∧
    incrB (iterPts F.ninf F.pinf 2) = false := by decide

/-- **C2 (amended)**: under the preconditions with `a < b`, and provided
additionally that the interval is not doubly infinite and that `b ≥ 0`
whenever `a = -Inf` (the failing cases), every breakpoint sequence the
driver iterates over keeps first element `a`, last element `b`, is
strictly increasing, and has only finite values in its interior, so an
infinite value occurs only as the first or last element. -/
theorem C2_breakpoint_invariant (a b : F) (hab : flt a b = true)
    (hamend : a = F.ninf → ∃ q : ℚ, b = F.fin q ∧ 0 ≤ q) :
    ∀ k, pget (iterPts a b k) 0 = a ∧
      pget (iterPts a b k) ((iterPts a b k).length - 1) = b ∧
      incrB (iterPts a b k) = true ∧
      (∀ i, 1 ≤ i → i < (iterPts a b k).length - 1 →
        isFinite (pget (iterPts a b k) i) = true) := by
  have hstep : ∀ k, SInv a b (iterPts a b (k+1)) := by
    intro k
    induction k with
    | zero => exact SInv_base a b hab hamend
    | succ j ih => exact SInv_step a b _ ih
  intro k
  cases k with
  | zero =>
    refine ⟨rfl, rfl, ?_, ?_⟩
    · simp [iterPts, incrB, hab]
    · intro i hi1 hi2
      simp [iterPts] at hi2
      omega
  | succ j =>
    obtain ⟨hlen, hfirst, hlast, hadj, hint, hneg, hpos⟩ := hstep j
    refine ⟨hfirst, hlast, incrB_of_adj _ hadj, ?_⟩
    intro i hi1 hi2
    obtain ⟨q, hq⟩ := hint i hi1 (by omega)
    rw [hq]
    rfl

/-- Witness for C2 on the half-infinite interval `(-Inf, 0]` after two
refinements. -/
theorem C2_breakpoint_invariant_witness :
    incrB (iterPts F.ninf (F.fin 0) 2) = true ∧
    pget (iterPts F.ninf (F.fin 0) 2) 0 = F.ninf := by
  have h := C2_breakpoint_invariant F.ninf (F.fin 0) rfl
    (fun _ => ⟨0, rfl, le_refl 0⟩) 2
  exact ⟨h.2.2.1, h.1⟩
theorem fle_left_classes (a b : F) (h : fle a b = true) (ha : a ≠ F.pinf) :
    a = F.ninf ∨ ∃ x : ℚ, a = F.fin x := by
  cases a with
  | fin x => exact Or.inr ⟨x, rfl⟩
  | ninf => exact Or.inl rfl
  | pinf => exact absurd rfl ha
  | nan => cases b <;> simp [fle] at h

theorem fle_right_classes (a b : F) (h : fle a b = true) (hb : b ≠ F.ninf) :
    b = F.pinf ∨ ∃ y : ℚ, b = F.fin y := by
  cases b with
  | fin y => exact Or.inr ⟨y, rfl⟩
  | pinf => exact Or.inl rfl
  | ninf => exact absurd rfl hb
  | nan => cases a <;> simp [fle] at h

theorem adjPairs_mem : ∀ (l : List F) (LR : F × F), LR ∈ adjPairs l →
    ∃ i, i + 1 < l.length ∧ LR.1 = pget l i ∧ LR.2 = pget l (i+1) := by
  intro l
  induction l with
  | nil => intro LR h; simp [adjPairs] at h
  | cons x l ih =>
    intro LR h
    cases l with
    | nil => simp [adjPairs] at h
    | cons y rest =>
      rw [adjPairs] at h
      rcases List.mem_cons.mp h with rfl | h2
      · exact ⟨0, by simp, rfl, rfl⟩
      · obtain ⟨i, hi, h1, h2'⟩ := ih LR h2
        exact ⟨i+1, by simpa using hi, h1, h2'⟩

theorem goSlice_length (l : List F) (s e : Nat) :
    (goSlice l s e).length = min (e - s) (l.length - s) := by
  simp [goSlice]

theorem pget_goSlice (l : List F) (s e i : Nat) (h : i < e - s) :
    pget (goSlice l s e) i = pget l (s + i) := by
  rw [pget, pget, goSlice, List.getD_eq_getElem?_getD, List.getD_eq_getElem?_getD,
    List.getElem?_take_of_lt h, List.getElem?_drop]

/-- The weak invariant needed for panel-pair finiteness: endpoints
preserved, interior finite. -/
structure WInv (a b : F) (pts : List F) : Prop where
  hlen : 3 ≤ pts.length
  hfirst : pget pts 0 = a
  hlast : pget pts (pts.length - 1) = b
  hint : ∀ i, 1 ≤ i → i ≤ pts.length - 2 → ∃ q : ℚ, pget pts i = F.fin q

theorem WInv_step (a b : F) (pts : List F)
    (ha : a = F.ninf ∨ ∃ x : ℚ, a = F.fin x)
    (hb : b = F.pinf ∨ ∃ y : ℚ, b = F.fin y)
    (h : WInv a b pts) : WInv a b (refinedPoints pts) := by
  have hm : (refinedPoints pts).length = 2 * pts.length - 1 := length_refinedPoints pts
  obtain ⟨hlen, hfirst, hlast, hint⟩ := h
  refine ⟨by omega, ?_, ?_, ?_⟩
  · have := rp_get_even pts hlen 0 (by omega)
    rw [show 2*0 = 0 by norm_num] at this
    rw [this, hfirst]
  · rw [hm, show 2*pts.length - 1 - 1 = 2*(pts.length - 1) by omega,
      rp_get_even pts hlen (pts.length - 1) (by omega), hlast]
  · intro i hi1 hi2
    rw [hm] at hi2
    rcases Nat.lt_or_ge i 2 with hi0 | hige
    · have hi' : i = 1 := by omega
      subst hi'
      rw [rp_get_one_if pts hlen]
      obtain ⟨q, hq⟩ := hint 1 (by omega) (by omega)
      by_cases hni : isNInf (pget pts 0) = true
      · rw [if_pos hni, hq, fmul_fin2]
        exact ⟨q*2, rfl⟩
      · rw [if_neg hni]
        rcases ha with ha' | ⟨x, ha'⟩
        · rw [hfirst, ha'] at hni
          simp [isNInf] at hni
        · rw [hfirst, ha', hq, mid_fin]
          exact ⟨(x+q)/2, rfl⟩
    · rcases Nat.lt_or_ge i (2*pts.length - 3) with hilt | hige2
      · rcases Nat.mod_two_eq_zero_or_one i with hp | hp
        · obtain ⟨j, rfl⟩ : ∃ j, i = 2*j := ⟨i/2, by omega⟩
          rw [rp_get_even pts hlen j (by omega)]
          exact hint j (by omega) (by omega)
        · obtain ⟨j, rfl⟩ : ∃ j, i = 2*j+1 := ⟨i/2, by omega⟩
          rw [rp_get_odd_mid pts hlen j (by omega) (by omega)]
          obtain ⟨u, hu⟩ := hint j (by omega) (by omega)
          obtain ⟨v, hv⟩ := hint (j+1) (by omega) (by omega)
          rw [hu, hv, mid_fin]
          exact ⟨(u+v)/2, rfl⟩
      · have hi' : i = 2*pts.length - 3 := by omega
        subst hi'
        rw [rp_get_rmid_if pts hlen]
        obtain ⟨p, hp⟩ := hint (pts.length - 2) (by omega) (by omega)
        by_cases hpi : isPInf (pget pts (pts.length - 1)) = true
        · rw [if_pos hpi, hp, fmul_fin2]
          exact ⟨p*2, rfl⟩
        · rw [if_neg hpi]
          rcases hb with hb' | ⟨y, hb'⟩
          · rw [hlast, hb'] at hpi
            simp [isPInf] at hpi
          · rw [hlast, hb', hp, mid_fin]
            exact ⟨(y+p)/2, rfl⟩

theorem WInv_of_triple (a b : F) (m : ℚ) : WInv a b [a, F.fin m, b] := by
  refine ⟨by simp, rfl, rfl, ?_⟩
  intro i hi1 hi2
  simp at hi2
  have hi3 : i = 1 := by omega
  subst hi3
  exact ⟨m, rfl⟩

theorem WInv_base (a b : F) (hab : fle a b = true) (ha : a ≠ F.pinf)
    (hb : b ≠ F.ninf)
    (hamend : a = F.ninf → ∀ q : ℚ, b = F.fin q → 0 ≤ q) :
    WInv a b (refinedPoints [a, b]) := by
  rcases fle_left_classes a b hab ha with ha' | ⟨x, ha'⟩
  · rcases fle_right_classes a b hab hb with hb' | ⟨y, hb'⟩
    · subst ha'
      subst hb'
      rw [show refinedPoints [F.ninf, F.pinf] = [F.ninf, F.fin 0, F.pinf] by decide]
      exact WInv_of_triple _ _ 0
    · subst ha'
      subst hb'
      rw [rp_pair_ninf y (hamend rfl y rfl)]
      exact WInv_of_triple _ _ (-1)
  · subst ha'
    rcases fle_right_classes _ b hab hb with hb' | ⟨y, hb'⟩
    · subst hb'
      rcases le_or_lt x 0 with hx0 | hx0
      · rw [rp_pair_pinf_le x hx0]
        exact WInv_of_triple _ _ 1
      · rw [rp_pair_pinf_pos x hx0]
        exact WInv_of_triple _ _ (x*2)
    · subst hb'
      rw [rp_pair_fin x y]
      exact WInv_of_triple _ _ ((x+y)/2)

/-- **C1 counterexample**: `a = -Inf`, `b = -1` satisfy the claim's
preconditions (`a ≤ b`, `a ≠ +Inf`, `b ≠ -Inf`, any `tolerance > 0`),
yet the very first refinement leads the driver to pass the pair
`(-Inf, -1)` to `boolesrule`. -/
theorem C1_counterexample :
    fle F.ninf (F.fin (-1)) = true ∧
    (F.ninf, F.fin (-1)) ∈ panelPairs (iterPts F.ninf (F.fin (-1)) 1) := by
  decide

/-- **C1 (amended)**: under the preconditions, and provided additionally
that `b ≥ 0` whenever `a = -Inf` (the case the bootstrap misses, where
the right-endpoint write block plants `-Inf` in the interior), every
pair `(L, R)` the driver passes to `boolesrule` — the adjacent pairs of
`points[start-1 : end]` in each iteration — consists of two finite
values. -/
theorem C1_finite_panels (a b tol : F) (hab : fle a b = true)
    (ha : a ≠ F.pinf) (hb : b ≠ F.ninf) (htol : flt (F.fin 0) tol = true)
    (hamend : a = F.ninf → ∀ q : ℚ, b = F.fin q → 0 ≤ q) :
    ∀ k (L R : F), (L, R) ∈ panelPairs (iterPts a b (k+1)) →
      (∃ x : ℚ, L = F.fin x) ∧ (∃ y : ℚ, R = F.fin y) := by
  have hca := fle_left_classes a b hab ha
  have hcb := fle_right_classes a b hab hb
  have hW : ∀ k, WInv a b (iterPts a b (k+1)) := by
    intro k
    induction k with
    | zero => exact WInv_base a b hab ha hb hamend
    | succ j ih => exact WInv_step a b _ hca hcb ih
  intro k L R hmem
  obtain ⟨hlen, hfirst, hlast, hint⟩ := hW k
  obtain ⟨i, hi, h1, h2⟩ := adjPairs_mem _ _ hmem
  rw [goSlice_length] at hi
  have hfin : ∀ p, panelStart (iterPts a b (k+1)) - 1 ≤ p →
      p < panelEnd (iterPts a b (k+1)) → ∃ x : ℚ, pget (iterPts a b (k+1)) p = F.fin x := by
    intro p hp1 hp2
    rcases hca with ha' | ⟨x, ha'⟩ <;>
      rcases hcb with hb' | ⟨y, hb'⟩
    · -- a = ninf, b = pinf
      have hs : panelStart (iterPts a b (k+1)) = 2 := by
        rw [panelStart, if_pos (by rw [hfirst, ha']; rfl)]
      rw [hs] at hp1
      have he : panelEnd (iterPts a b (k+1)) = (iterPts a b (k+1)).length - 1 := by
        rw [panelEnd, if_pos (by rw [hlast, hb']; rfl)]
      rw [he] at hp2
      exact hint p (by omega) (by omega)
    · -- a = ninf, b = fin
      have hs : panelStart (iterPts a b (k+1)) = 2 := by
        rw [panelStart, if_pos (by rw [hfirst, ha']; rfl)]
      rw [hs] at hp1
      have he : panelEnd (iterPts a b (k+1)) = (iterPts a b (k+1)).length := by
        rw [panelEnd, if_neg (by rw [hlast, hb']; simp [isPInf])]
      rw [he] at hp2
      rcases Nat.lt_or_ge p ((iterPts a b (k+1)).length - 1) with hp3 | hp3
      · exact hint p (by omega) (by omega)
      · have : p = (iterPts a b (k+1)).length - 1 := by omega
        subst this
        exact ⟨y, by rw [hlast, hb']⟩
    · -- a = fin, b = pinf
      have hs : panelStart (iterPts a b (k+1)) = 1 := by
        rw [panelStart, if_neg (by rw [hfirst, ha']; simp [isNInf])]
      rw [hs] at hp1
      have he : panelEnd (iterPts a b (k+1)) = (iterPts a b (k+1)).length - 1 := by
        rw [panelEnd, if_pos (by rw [hlast, hb']; rfl)]
      rw [he] at hp2
      rcases Nat.lt_or_ge p 1 with hp3 | hp3
      · have : p = 0 := by omega
        subst this
        exact ⟨x, by rw [hfirst, ha']⟩
      · exact hint p (by omega) (by omega)
    · -- a = fin, b = fin
      have hs : panelStart (iterPts a b (k+1)) = 1 := by
        rw [panelStart, if_neg (by rw [hfirst, ha']; simp [isNInf])]
      rw [hs] at hp1
      have he : panelEnd (iterPts a b (k+1)) = (iterPts a b (k+1)).length := by
        rw [panelEnd, if_neg (by rw [hlast, hb']; simp [isPInf])]
      rw [he] at hp2
      rcases Nat.lt_or_ge p 1 with hp3 | hp3
      · have : p = 0 := by omega
        subst this
        exact ⟨x, by rw [hfirst, ha']⟩
      · rcases Nat.lt_or_ge p ((iterPts a b (k+1)).length - 1) with hp4 | hp4
        · exact hint p (by omega) (by omega)
        · have : p = (iterPts a b (k+1)).length - 1 := by omega
          subst this
          exact ⟨y, by rw [hlast, hb']⟩
  constructor
  · rw [show L = (L, R).1 from rfl, h1,
      pget_goSlice _ _ _ _ (by omega)]
    exact hfin _ (by omega) (by omega)
  · rw [show R = (L, R).2 from rfl, h2,
      pget_goSlice _ _ _ _ (by omega)]
    exact hfin _ (by omega) (by omega)

/-- Witness for C1 on the half-infinite interval `(-Inf, 0]`: the single
panel pair of the first refinement is `(-1, 0)`. -/
theorem C1_finite_panels_witness :
    (∃ x : ℚ, F.fin (-1) = F.fin x) ∧ (∃ y : ℚ, F.fin 0 = F.fin y) := by
  refine C1_finite_panels F.ninf (F.fin 0) (F.fin 1) rfl (by simp) (by simp)
    (by decide) (fun _ q hq => by cases hq; norm_num) 0 (F.fin (-1)) (F.fin 0) ?_
  decide
/-- A polynomial of degree at most 5 over `ℚ`. -/
def evalPoly (c0 c1 c2 c3 c4 c5 x : ℚ) : ℚ :=
  c0 + c1*x + c2*x^2 + c3*x^3 + c4*x^4 + c5*x^5

/-- The antiderivative of `evalPoly` vanishing at `0`. -/
def polyPrim (c0 c1 c2 c3 c4 c5 x : ℚ) : ℚ :=
  c0*x + c1*x^2/2 + c2*x^3/3 + c3*x^4/4 + c4*x^5/5 + c5*x^6/6

/-- The polynomial as an integrand on `F` (evaluated only at finite
points on the paths we verify). -/
def polyF (c0 c1 c2 c3 c4 c5 : ℚ) : F → F
  | F.fin x => F.fin (evalPoly c0 c1 c2 c3 c4 c5 x)
  | _ => F.nan

theorem polyF_fin (c0 c1 c2 c3 c4 c5 x : ℚ) :
    polyF c0 c1 c2 c3 c4 c5 (F.fin x) = F.fin (evalPoly c0 c1 c2 c3 c4 c5 x) := rfl

/-- Boole's rule is exact on polynomials of degree at most 5: over any
finite panel it returns exactly the antiderivative difference. -/
theorem boolesrule_poly (c0 c1 c2 c3 c4 c5 u v : ℚ) :
    boolesrule (polyF c0 c1 c2 c3 c4 c5) (F.fin u) (F.fin v) =
      F.fin (polyPrim c0 c1 c2 c3 c4 c5 v - polyPrim c0 c1 c2 c3 c4 c5 u) := by
  rw [boolesrule]
  rw [fsub_fin, fdivPos_fin4, fmul_fin, fmul_fin, fadd_fin, fadd_fin, fadd_fin]
  rw [polyF_fin, polyF_fin, polyF_fin, polyF_fin, polyF_fin]
  rw [fmul_fin, fmul_fin, fmul_fin, fmul_fin, fmul_fin, fadd_fin, fadd_fin,
    fadd_fin, fadd_fin, fmul_fin, fdivPos_fin45]
  congr 1
  simp only [evalPoly, polyPrim]
  ring

/-- **C3**: for every polynomial of degree at most 5, all finite
`a < b` and every `tolerance > 0`, `Integrate` returns exactly the
antiderivative difference, and it does so on the first refinement
iteration (fuel `1` suffices; any larger fuel gives the same value). -/
theorem C3_polynomial_exactness (c0 c1 c2 c3 c4 c5 a b tol : ℚ)
    (hab : a < b) (htol : 0 < tol) (fuel : Nat) :
    Integrate (polyF c0 c1 c2 c3 c4 c5) (F.fin a) (F.fin b) (F.fin tol) (fuel+1) =
      some (F.fin (polyPrim c0 c1 c2 c3 c4 c5 b - polyPrim c0 c1 c2 c3 c4 c5 a)) := by
  have hsum : refinedSum (polyF c0 c1 c2 c3 c4 c5) (refinedPoints [F.fin a, F.fin b]) =
      F.fin (polyPrim c0 c1 c2 c3 c4 c5 b - polyPrim c0 c1 c2 c3 c4 c5 a) := by
    rw [rp_pair_fin a b]
    have hpp : panelPairs [F.fin a, F.fin ((a+b)/2), F.fin b] =
        [(F.fin a, F.fin ((a+b)/2)), (F.fin ((a+b)/2), F.fin b)] := rfl
    rw [refinedSum, hpp]
    simp only [List.foldl]
    rw [boolesrule_poly, boolesrule_poly, fadd_fin, fadd_fin]
    congr 1
    ring
  rw [Integrate]
  rw [if_neg (by simp [isNInf, isPInf])]
  rw [integrateLoop_succ, hsum, boolesrule_poly]
  rw [if_neg (by simp [isPInf]), if_neg (by simp [isNInf])]
  rw [if_pos]
  simp [fsub_fin, fabs_fin, flt, htol]

/-- Witness for C3: the polynomial `x²` on `[0, 3]` with tolerance `1`
and a single unit of fuel. -/
theorem C3_polynomial_exactness_witness :
    Integrate (polyF 0 0 1 0 0 0) (F.fin 0) (F.fin 3) (F.fin 1) 1 =
      some (F.fin (polyPrim 0 0 1 0 0 0 3 - polyPrim 0 0 1 0 0 0 0)) := by
  exact C3_polynomial_exactness 0 0 1 0 0 0 0 3 1 (by norm_num) (by norm_num) 0
/-- The five points at which `boolesrule` evaluates the integrand on one
panel. -/
def panelNodes (a b : F) : List F :=
  let h := fdivPos (fsub b a) 4
  [a, fadd a h, fadd a (fmul (F.fin 2) h), fadd a (fmul (F.fin 3) h), b]

/-- All points at which one driver iteration over `pts` evaluates the
integrand. -/
def evalNodes (pts : List F) : List F :=
  ((panelPairs pts).map (fun LR => panelNodes LR.1 LR.2)).flatten

/-- An integrand that is NaN at the single point `1/16` (a node first
evaluated in the second refinement iteration) and `x⁶` elsewhere. -/
def fCE8 : F → F := fun v =>
  match v with
  | F.fin q => if q = mkRat 1 16 then F.nan
      else F.fin (qmul q (qmul q (qmul q (qmul q (qmul q q)))))
  | _ => F.nan

/-- **C8 counterexample**: `fCE8` returns NaN at `1/16`, a point that is
evaluated during quadrature (it is a node of the second iteration, and
the run does reach the second iteration: with fuel for exactly one
iteration `Integrate` has not returned), yet the first iteration's
refined sum is not NaN — so "every refined sum is NaN" fails. -/
theorem C8_counterexample :
    (F.fin (mkRat 1 16)) ∈ evalNodes (iterPts (F.fin 0) (F.fin 1) 2) ∧
    fCE8 (F.fin (mkRat 1 16)) = F.nan ∧
    Integrate fCE8 (F.fin 0) (F.fin 1) (F.fin (mkRat 1 1000000000)) 1 = none ∧
    refinedSum fCE8 (iterPts (F.fin 0) (F.fin 1) 1) ≠ F.nan := by
  decide

theorem fadd_nan_right (x : F) : fadd x F.nan = F.nan := by
  cases x <;> rfl

theorem fadd_nan_left (x : F) : fadd F.nan x = F.nan := by
  cases x <;> rfl

theorem fmul_nan_right (x : F) : fmul x F.nan = F.nan := by
  cases x <;> rfl

theorem fsub_nan_right (x : F) : fsub x F.nan = F.nan := by
  cases x <;> rfl

/-- If the integrand is NaN at every finite point, each panel estimate
over a finite panel is NaN. -/
theorem boolesrule_nan (f : F → F) (hf : ∀ q : ℚ, f (F.fin q) = F.nan)
    (u v : ℚ) : boolesrule f (F.fin u) (F.fin v) = F.nan := by
  rw [boolesrule]
  rw [fsub_fin, fdivPos_fin4, fmul_fin, fmul_fin, fadd_fin, fadd_fin, fadd_fin]
  rw [hf, hf, hf, hf, hf]
  rfl

theorem foldl_panels_nan (f : F → F) (l : List (F × F)) :
    l.foldl (fun acc LR => fadd acc (boolesrule f LR.1 LR.2)) F.nan = F.nan := by
  induction l with
  | nil => rfl
  | cons p rest ih =>
    simp only [List.foldl_cons, fadd_nan_left]
    exact ih

/-- With a NaN integrand on a finite interval, every iteration's
`refined` sum is NaN: the first panel poisons the running sum. -/
theorem refinedSum_nan (f : F → F) (hf : ∀ q : ℚ, f (F.fin q) = F.nan)
    (a b : ℚ) (pts : List F) (hW : WInv (F.fin a) (F.fin b) pts) :
    refinedSum f pts = F.nan := by
  obtain ⟨hlen, hfirst, hlast, hint⟩ := hW
  have hs : panelStart pts = 1 := by
    rw [panelStart, if_neg (by rw [hfirst]; simp [isNInf])]
  have he : panelEnd pts = pts.length := by
    rw [panelEnd, if_neg (by rw [hlast]; simp [isPInf])]
  rw [refinedSum, panelPairs, hs, he]
  rw [show (1:Nat) - 1 = 0 from rfl, goSlice, List.drop_zero, Nat.sub_zero,
    List.take_length]
  cases pts with
  | nil => simp at hlen
  | cons x l =>
    cases l with
    | nil => simp at hlen
    | cons y rest =>
      rw [adjPairs, List.foldl_cons]
      have hx : x = F.fin a := hfirst
      obtain ⟨q1, hy⟩ := hint 1 (by omega) (by simp at hlen ⊢; omega)
      have hy' : y = F.fin q1 := hy
      rw [hx, hy']
      rw [boolesrule_nan f hf a q1, fadd_nan_right]
      exact foldl_panels_nan f _

/-- With a NaN integrand on a finite interval the loop never returns:
the divergence short-circuit needs an infinite value and the
convergence test compares against NaN, which is always false. -/
theorem integrateLoop_nan (f : F → F) (hf : ∀ q : ℚ, f (F.fin q) = F.nan)
    (err : F) (a b : ℚ) :
    ∀ fuel (pts : List F) (ret : F),
      WInv (F.fin a) (F.fin b) (refinedPoints pts) →
      integrateLoop f err pts ret fuel = none := by
  intro fuel
  induction fuel with
  | zero => intro pts ret _; rfl
  | succ n ih =>
    intro pts ret hW
    have hs := refinedSum_nan f hf a b _ hW
    rw [integrateLoop_succ, hs]
    rw [if_neg (by simp [isPInf]), if_neg (by simp [isNInf]),
      if_neg (by rw [fsub_nan_right]; simp [fabs, flt])]
    exact ih _ _ (WInv_step _ _ _ (Or.inr ⟨a, rfl⟩) (Or.inr ⟨b, rfl⟩) hW)

/-- **C8 (amended)**: with an integrand that returns NaN at every
finite point (the claim's constantly-NaN exemplar) on a finite
interval `a < b` with `tolerance > 0`, every refined per-panel sum is
NaN, so neither the convergence test nor the divergence short-circuit
ever fires and `Integrate` never returns, at any fuel.  (For an
integrand NaN at only one evaluated point, the sums are NaN only from
the iteration that first evaluates that point — see the
counterexample.) -/
theorem C8_nan_nontermination (f : F → F) (hf : ∀ q : ℚ, f (F.fin q) = F.nan)
    (a b tol : ℚ) (hab : a < b) (htol : 0 < tol) (k fuel : Nat) :
    refinedSum f (iterPts (F.fin a) (F.fin b) (k+1)) = F.nan ∧
    Integrate f (F.fin a) (F.fin b) (F.fin tol) fuel = none := by
  have hbase : WInv (F.fin a) (F.fin b) (refinedPoints [F.fin a, F.fin b]) := by
    refine WInv_base (F.fin a) (F.fin b) (by simp [fle]; exact hab.le) (by simp)
      (by simp) ?_
    intro h
    exact absurd h (by simp)
  have hWk : ∀ j, WInv (F.fin a) (F.fin b) (iterPts (F.fin a) (F.fin b) (j+1)) := by
    intro j
    induction j with
    | zero => exact hbase
    | succ m ihm => exact WInv_step _ _ _ (Or.inr ⟨a, rfl⟩) (Or.inr ⟨b, rfl⟩) ihm
  refine ⟨refinedSum_nan f hf a b _ (hWk k), ?_⟩
  rw [Integrate]
  exact integrateLoop_nan f hf (F.fin tol) a b fuel [F.fin a, F.fin b] _ hbase

/-- Witness for C8: the constantly-NaN integrand on `[0, 1]`. -/
theorem C8_nan_nontermination_witness :
    refinedSum (fun _ => F.nan) (iterPts (F.fin 0) (F.fin 1) 1) = F.nan ∧
    Integrate (fun _ => F.nan) (F.fin 0) (F.fin 1) (F.fin 1) 3 = none := by
  exact C8_nan_nontermination (fun _ => F.nan) (fun _ => rfl) 0 1 1
    (by norm_num) (by norm_num) 0 3
theorem fneg_fneg (x : F) : fneg (fneg x) = x := by
  cases x <;> simp [fneg, qneg_eq]

theorem fadd_fneg (x y : F) : fadd (fneg x) (fneg y) = fneg (fadd x y) := by
  cases x <;> cases y <;> simp [fadd, fneg, qadd_eq, qneg_eq] <;> ring

theorem signCase (q : ℚ) (vp vn vz : F) :
    (if 0 < -q then vp else if -q < 0 then vn else vz) =
    (if 0 < q then vn else if q < 0 then vp else vz) := by
  rcases lt_trichotomy 0 q with h | h | h
  · rw [if_neg (by linarith), if_pos (by linarith), if_pos h]
  · rw [← h]
    norm_num
  · rw [if_pos (by linarith), if_neg (by linarith), if_pos h]

theorem fmul_fneg_right (x y : F) : fmul x (fneg y) = fneg (fmul x y) := by
  cases x with
  | nan => cases y <;> rfl
  | fin p =>
    cases y with
    | fin q =>
      rw [fneg_fin, fmul_fin, fmul_fin, fneg_fin]
      congr 1
      ring
    | pinf =>
      show (if 0 < p then F.ninf else if p < 0 then F.pinf else F.nan) =
        fneg (if 0 < p then F.pinf else if p < 0 then F.ninf else F.nan)
      rw [apply_ite fneg, apply_ite fneg]
      rfl
    | ninf =>
      show (if 0 < p then F.pinf else if p < 0 then F.ninf else F.nan) =
        fneg (if 0 < p then F.ninf else if p < 0 then F.pinf else F.nan)
      rw [apply_ite fneg, apply_ite fneg]
      rfl
    | nan => rfl
  | pinf =>
    cases y with
    | fin q =>
      rw [fneg_fin]
      show (if 0 < -q then F.pinf else if -q < 0 then F.ninf else F.nan) =
        fneg (if 0 < q then F.pinf else if q < 0 then F.ninf else F.nan)
      rw [apply_ite fneg, apply_ite fneg]
      exact signCase q _ _ _
    | pinf => rfl
    | ninf => rfl
    | nan => rfl
  | ninf =>
    cases y with
    | fin q =>
      rw [fneg_fin]
      show (if 0 < -q then F.ninf else if -q < 0 then F.pinf else F.nan) =
        fneg (if 0 < q then F.ninf else if q < 0 then F.pinf else F.nan)
      rw [apply_ite fneg, apply_ite fneg]
      exact signCase q _ _ _
    | pinf => rfl
    | ninf => rfl
    | nan => rfl

theorem fmul_fneg_left (x y : F) : fmul (fneg x) y = fneg (fmul x y) := by
  cases y with
  | nan => cases x <;> rfl
  | fin q =>
    cases x with
    | fin p =>
      rw [fneg_fin, fmul_fin, fmul_fin, fneg_fin]
      congr 1
      ring
    | pinf =>
      show (if 0 < q then F.ninf else if q < 0 then F.pinf else F.nan) =
        fneg (if 0 < q then F.pinf else if q < 0 then F.ninf else F.nan)
      rw [apply_ite fneg, apply_ite fneg]
      rfl
    | ninf =>
      show (if 0 < q then F.pinf else if q < 0 then F.ninf else F.nan) =
        fneg (if 0 < q then F.ninf else if q < 0 then F.pinf else F.nan)
      rw [apply_ite fneg, apply_ite fneg]
      rfl
    | nan => rfl
  | pinf =>
    cases x with
    | fin p =>
      rw [fneg_fin]
      show (if 0 < -p then F.pinf else if -p < 0 then F.ninf else F.nan) =
        fneg (if 0 < p then F.pinf else if p < 0 then F.ninf else F.nan)
      rw [apply_ite fneg, apply_ite fneg]
      exact signCase p _ _ _
    | pinf => rfl
    | ninf => rfl
    | nan => rfl
  | ninf =>
    cases x with
    | fin p =>
      rw [fneg_fin]
      show (if 0 < -p then F.ninf else if -p < 0 then F.pinf else F.nan) =
        fneg (if 0 < p then F.ninf else if p < 0 then F.pinf else F.nan)
      rw [apply_ite fneg, apply_ite fneg]
      exact signCase p _ _ _
    | pinf => rfl
    | ninf => rfl
    | nan => rfl

theorem fdivPos_fneg (x : F) (q : ℚ) (hq : 0 < q) :
    fdivPos (fneg x) q = fneg (fdivPos x q) := by
  cases x <;> simp [fdivPos, fneg, qneg_eq, qdivP_eq _ q hq, neg_div]

theorem fsub_fneg_fneg (x y : F) : fsub (fneg x) (fneg y) = fneg (fsub x y) := by
  rw [fsub, fsub, fadd_fneg]

theorem fabs_fneg (x : F) : fabs (fneg x) = fabs x := by
  cases x <;> simp [fabs, fneg, qabs_eq, qneg_eq]

theorem isPInf_fneg (x : F) : isPInf (fneg x) = isNInf x := by
  cases x <;> rfl

theorem isNInf_fneg (x : F) : isNInf (fneg x) = isPInf x := by
  cases x <;> rfl

/-- Negating the integrand negates every Boole panel estimate, whatever
the value classes involved. -/
theorem boolesrule_neg (f : F → F) (a b : F) :
    boolesrule (fun x => fneg (f x)) a b = fneg (boolesrule f a b) := by
  rw [boolesrule, boolesrule]
  rw [fmul_fneg_right, fmul_fneg_right, fmul_fneg_right, fmul_fneg_right,
    fmul_fneg_right, fadd_fneg, fadd_fneg, fadd_fneg, fadd_fneg,
    fmul_fneg_right, fdivPos_fneg _ _ (by norm_num)]

theorem refinedSum_neg (f : F → F) (pts : List F) :
    refinedSum (fun x => fneg (f x)) pts = fneg (refinedSum f pts) := by
  rw [refinedSum, refinedSum]
  have hz : (F.fin 0 : F) = fneg (F.fin 0) := by simp [fneg, qneg_eq]
  conv_lhs => rw [hz]
  generalize (F.fin 0 : F) = z
  generalize panelPairs pts = l
  induction l generalizing z with
  | nil => rfl
  | cons p rest ih =>
    rw [List.foldl_cons, List.foldl_cons, boolesrule_neg, fadd_fneg]
    exact ih _

theorem integrateLoop_neg (f : F → F) (err : F) :
    ∀ (fuel : Nat) (pts : List F) (ret : F),
      integrateLoop (fun x => fneg (f x)) err pts (fneg ret) fuel =
        Option.map fneg (integrateLoop f err pts ret fuel) := by
  intro fuel
  induction fuel with
  | zero => intro pts ret; rfl
  | succ n ih =>
    intro pts ret
    rw [integrateLoop_succ, integrateLoop_succ, refinedSum_neg]
    simp only [isPInf_fneg, isNInf_fneg, fsub_fneg_fneg, fabs_fneg]
    by_cases hP : isPInf ret = true ∧ isPInf (refinedSum f (refinedPoints pts)) = true
    · by_cases hN : isNInf ret = true ∧ isNInf (refinedSum f (refinedPoints pts)) = true
      · rcases hP with ⟨hP1, _⟩
        rcases hN with ⟨hN1, _⟩
        cases ret <;> simp [isPInf, isNInf] at hP1 hN1
      · simp [hP, hN]
    · by_cases hN : isNInf ret = true ∧ isNInf (refinedSum f (refinedPoints pts)) = true
      · simp [hP, hN]
      · by_cases hC : flt (fabs (fsub ret (refinedSum f (refinedPoints pts)))) err = true
        · simp [hP, hN, hC]
        · simp [hP, hN, hC, ih]

/-- **C5 (amended)**: for finite endpoints the sign symmetry is exact:
`Integrate(x ↦ -f(x), a, b, tol)` is the negation of
`Integrate(f, a, b, tol)`, iteration for iteration (for every fuel).
For an infinite endpoint the claim fails because both runs seed the
sentinel estimate with `+Inf` (never `-Inf`): see the counterexample. -/
theorem C5_sign_symmetry (f : F → F) (a b : ℚ) (err : F) (fuel : Nat) :
    Integrate (fun x => fneg (f x)) (F.fin a) (F.fin b) err fuel =
      Option.map fneg (Integrate f (F.fin a) (F.fin b) err fuel) := by
  rw [Integrate, Integrate]
  rw [if_neg (by simp [isNInf, isPInf]), if_neg (by simp [isNInf, isPInf])]
  rw [boolesrule_neg]
  exact integrateLoop_neg f err fuel [F.fin a, F.fin b] (boolesrule f (F.fin a) (F.fin b))
/-- The degenerate sequence shape reached by `Integrate` on
`[-Inf, b]` with `b < 0`: `-Inf` everywhere except the final
breakpoint. -/
structure NInv (pts : List F) : Prop where
  hlen : 3 ≤ pts.length
  hfirst : pget pts 0 = F.ninf
  hint : ∀ i, 1 ≤ i → i ≤ pts.length - 2 → pget pts i = F.ninf
  hlast : pget pts (pts.length - 1) = F.fin (-1)

theorem NInv_step (pts : List F) (h : NInv pts) : NInv (refinedPoints pts) := by
  have hm : (refinedPoints pts).length = 2 * pts.length - 1 := length_refinedPoints pts
  obtain ⟨hlen, hfirst, hint, hlast⟩ := h
  refine ⟨by omega, ?_, ?_, ?_⟩
  · have := rp_get_even pts hlen 0 (by omega)
    rw [show 2*0 = 0 by norm_num] at this
    rw [this, hfirst]
  · intro i hi1 hi2
    rw [hm] at hi2
    rcases Nat.lt_or_ge i 2 with hi0 | hige
    · have hi' : i = 1 := by omega
      subst hi'
      rw [rp_get_one_if pts hlen, if_pos (by rw [hfirst]; rfl),
        hint 1 (by omega) (by omega)]
      norm_num [fmul]
    · rcases Nat.lt_or_ge i (2*pts.length - 3) with hilt | hige2
      · rcases Nat.mod_two_eq_zero_or_one i with hp | hp
        · obtain ⟨j, rfl⟩ : ∃ j, i = 2*j := ⟨i/2, by omega⟩
          rw [rp_get_even pts hlen j (by omega)]
          exact hint j (by omega) (by omega)
        · obtain ⟨j, rfl⟩ : ∃ j, i = 2*j+1 := ⟨i/2, by omega⟩
          rw [rp_get_odd_mid pts hlen j (by omega) (by omega),
            hint j (by omega) (by omega), hint (j+1) (by omega) (by omega)]
          rfl
      · have hi' : i = 2*pts.length - 3 := by omega
        subst hi'
        rw [rp_get_rmid_if pts hlen, if_neg (by rw [hlast]; simp [isPInf]),
          hlast, hint (pts.length - 2) (by omega) (by omega)]
        rfl
  · rw [hm, show 2*pts.length - 1 - 1 = 2*(pts.length - 1) by omega,
      rp_get_even pts hlen (pts.length - 1) (by omega), hlast]

/-- Boole's rule over the degenerate panel `(-Inf, -Inf)` with a
constant finite integrand is NaN (`h = -Inf - -Inf` is NaN). -/
theorem boolesrule_const_ninf_ninf (g : F → F) (c : ℚ)
    (hg : ∀ v, g v = F.fin c) : boolesrule g F.ninf F.ninf = F.nan := by
  rw [boolesrule]
  simp only [hg]
  rfl

theorem refinedSum_NInv_nan (g : F → F) (c : ℚ) (hg : ∀ v, g v = F.fin c)
    (pts : List F) (h : NInv pts) (h4 : 4 ≤ pts.length) :
    refinedSum g pts = F.nan := by
  obtain ⟨hlen, hfirst, hint, hlast⟩ := h
  have hs : panelStart pts = 2 := by
    rw [panelStart, if_pos (by rw [hfirst]; rfl)]
  have he : panelEnd pts = pts.length := by
    rw [panelEnd, if_neg (by rw [hlast]; simp [isPInf])]
  have hx1 : pget pts 1 = F.ninf := hint 1 (by omega) (by omega)
  have hx2 : pget pts 2 = F.ninf := hint 2 (by omega) (by omega)
  cases pts with
  | nil => simp at hlen
  | cons x0 l =>
    cases l with
    | nil => simp at hlen
    | cons x1 l2 =>
      cases l2 with
      | nil => simp at hlen
      | cons x2 rest =>
        rw [refinedSum, panelPairs, hs, he]
        have hslice : goSlice (x0 :: x1 :: x2 :: rest) (2-1)
            ((x0 :: x1 :: x2 :: rest) : List F).length = x1 :: x2 :: rest := by
          rw [goSlice]
          rw [show ((x0 :: x1 :: x2 :: rest) : List F).drop (2-1) = x1 :: x2 :: rest
            from rfl]
          rw [show ((x0 :: x1 :: x2 :: rest) : List F).length - (2-1) =
            ((x1 :: x2 :: rest) : List F).length by simp]
          exact List.take_length _
        rw [hslice, adjPairs, List.foldl_cons]
        rw [show x1 = F.ninf from hx1, show x2 = F.ninf from hx2]
        rw [boolesrule_const_ninf_ninf g c hg, fadd_nan_right]
        exact foldl_panels_nan g _

theorem integrateLoop_NInv_none (g : F → F) (c : ℚ) (hg : ∀ v, g v = F.fin c)
    (err : F) :
    ∀ (fuel : Nat) (pts : List F) (ret : F), NInv pts →
      integrateLoop g err pts ret fuel = none := by
  intro fuel
  induction fuel with
  | zero => intro pts ret _; rfl
  | succ n ih =>
    intro pts ret hN
    have hN' : NInv (refinedPoints pts) := NInv_step pts hN
    have hm : (refinedPoints pts).length = 2 * pts.length - 1 := length_refinedPoints pts
    have hsum := refinedSum_NInv_nan g c hg _ hN' (by have := hN.hlen; omega)
    rw [integrateLoop_succ, hsum]
    rw [if_neg (by simp [isPInf]), if_neg (by simp [isNInf]),
      if_neg (by rw [fsub_nan_right]; simp [fabs, flt])]
    exact ih _ _ hN'

/-- **C5 counterexample**: on `a = -Inf`, `b = -1` (satisfying the
claim's preconditions) with the constant integrand `1`, `Integrate`
returns `+Inf` in its first iteration, but with the negated integrand
it never returns at all (every later refined sum is NaN), rather than
returning `-Inf`. -/
theorem C5_counterexample :
    Integrate (fun _ => F.fin 1) F.ninf (F.fin (-1)) (F.fin 1) 1 = some F.pinf ∧
    ∀ fuel, Integrate (fun x => fneg ((fun _ : F => F.fin 1) x)) F.ninf
      (F.fin (-1)) (F.fin 1) fuel = none := by
  constructor
  · decide
  · intro fuel
    rw [show Integrate (fun x => fneg ((fun _ : F => F.fin 1) x)) F.ninf
        (F.fin (-1)) (F.fin 1) fuel =
      integrateLoop (fun x => fneg ((fun _ : F => F.fin 1) x)) (F.fin 1)
        [F.ninf, F.fin (-1)] F.pinf fuel from rfl]
    cases fuel with
    | zero => rfl
    | succ n =>
      rw [integrateLoop_succ]
      rw [show refinedSum (fun x => fneg ((fun _ : F => F.fin 1) x))
          (refinedPoints [F.ninf, F.fin (-1)]) = F.ninf by decide]
      rw [if_neg (by simp [isPInf]), if_neg (by simp [isNInf]),
        if_neg (by decide)]
      apply integrateLoop_NInv_none _ (qneg 1) (fun v => rfl) _ n _ _ ?_
      rw [show refinedPoints [F.ninf, F.fin (-1)] = [F.ninf, F.ninf, F.fin (-1)]
        by decide]
      refine ⟨by norm_num, rfl, ?_, rfl⟩
      intro i hi1 hi2
      simp at hi2
      have hi3 : i = 1 := by omega
      subst hi3
      rfl
theorem fadd_assoc (a b c : F) : fadd (fadd a b) c = fadd a (fadd b c) := by
  cases a <;> cases b <;> cases c <;> simp [fadd, qadd_eq, add_assoc]

theorem fadd_left_comm (a b c : F) : fadd a (fadd b c) = fadd b (fadd a c) := by
  rw [← fadd_assoc, fadd_comm a b, fadd_assoc]

theorem sum5_reorder (t1 t2 t3 t4 t5 : F) :
    fadd (fadd (fadd (fadd t5 t4) t3) t2) t1 =
      fadd (fadd (fadd (fadd t1 t2) t3) t4) t5 := by
  simp only [fadd_assoc]
  rw [fadd_comm t5]
  simp only [fadd_assoc]
  rw [fadd_left_comm t4, fadd_left_comm t3, fadd_left_comm t2]
  rw [fadd_left_comm t4 t3, fadd_left_comm t4 t1, fadd_left_comm t4 t2,
    fadd_left_comm t3 t1, fadd_left_comm t3 t2]

/-- Swapping the bounds of a finite panel negates the Boole estimate:
the node set is the same (in reverse order, with symmetric weights) and
the step `h` changes sign. -/
theorem boolesrule_swap_fin (f : F → F) (u v : ℚ) :
    boolesrule f (F.fin v) (F.fin u) = fneg (boolesrule f (F.fin u) (F.fin v)) := by
  rw [boolesrule, boolesrule]
  simp only [fsub_fin, fdivPos_fin4, fmul_fin, fadd_fin]
  rw [show (v + (u - v) / 4 : ℚ) = u + 3 * ((v - u) / 4) by ring]
  rw [show (v + 2 * ((u - v) / 4) : ℚ) = u + 2 * ((v - u) / 4) by ring]
  rw [show (v + 3 * ((u - v) / 4) : ℚ) = u + (v - u) / 4 by ring]
  rw [sum5_reorder (fmul (F.fin 7) (f (F.fin u)))
    (fmul (F.fin 32) (f (F.fin (u + (v - u) / 4))))
    (fmul (F.fin 12) (f (F.fin (u + 2 * ((v - u) / 4)))))
    (fmul (F.fin 32) (f (F.fin (u + 3 * ((v - u) / 4)))))
    (fmul (F.fin 7) (f (F.fin v)))]
  rw [show (2 * ((u - v) / 4) : ℚ) = -(2 * ((v - u) / 4)) by ring]
  rw [show F.fin (-(2 * ((v - u) / 4))) = fneg (F.fin (2 * ((v - u) / 4))) from
    (fneg_fin _).symm]
  rw [fmul_fneg_left, fdivPos_fneg _ _ (by norm_num)]
theorem pget_lt (l : List F) (i : Nat) (h : i < l.length) : pget l i = l[i] :=
  List.getD_eq_getElem l F.nan h

theorem pget_reverse (l : List F) (i : Nat) (h : i < l.length) :
    pget (l.reverse) i = pget l (l.length - 1 - i) := by
  rw [pget_lt _ _ (by simpa using h), pget_lt _ _ (by omega),
    List.getElem_reverse]

/-- For an all-finite breakpoint sequence, refining the reversed
sequence gives the reverse of the refined sequence. -/
theorem rp_reverse (pts : List F) (h2 : 2 ≤ pts.length)
    (hfin : ∀ i, i < pts.length → ∃ q : ℚ, pget pts i = F.fin q) :
    refinedPoints (pts.reverse) = (refinedPoints pts).reverse := by
  rcases Nat.lt_or_ge pts.length 3 with h3 | h3
  · match pts, h2, h3, hfin with
    | [x, y], _, _, hfin =>
      obtain ⟨p, hp⟩ := hfin 0 (by norm_num)
      obtain ⟨q, hq⟩ := hfin 1 (by norm_num)
      rw [show x = F.fin p from hp, show y = F.fin q from hq]
      rw [show ([F.fin p, F.fin q] : List F).reverse = [F.fin q, F.fin p] from rfl]
      rw [rp_pair_fin, rp_pair_fin]
      rw [show ([F.fin p, F.fin ((p+q)/2), F.fin q] : List F).reverse =
        [F.fin q, F.fin ((p+q)/2), F.fin p] from rfl]
      rw [show ((q+p)/2 : ℚ) = (p+q)/2 by ring]
  · have hrl : (pts.reverse).length = pts.length := List.length_reverse pts
    have hrev3 : 3 ≤ (pts.reverse).length := by omega
    have hfinR : ∀ i, i < (pts.reverse).length → ∃ q : ℚ, pget (pts.reverse) i = F.fin q := by
      intro i hi
      rw [pget_reverse _ _ (by omega)]
      exact hfin _ (by omega)
    apply List.ext_getElem
    · simp only [List.length_reverse, length_refinedPoints]
    · intro i h1 h1'
      have hlen1 : (refinedPoints (pts.reverse)).length = 2 * pts.length - 1 := by
        rw [length_refinedPoints, hrl]
      have hlen2 : (refinedPoints pts).length = 2 * pts.length - 1 :=
        length_refinedPoints pts
      rw [← pget_lt _ _ h1, ← pget_lt _ _ h1']
      rw [pget_reverse _ _ (by omega), hlen2]
      have hi : i < 2 * pts.length - 1 := by omega
      -- endpoint classes of the reversed sequence
      obtain ⟨a0, ha0⟩ := hfinR 0 (by omega)
      obtain ⟨aL, haL⟩ := hfinR ((pts.reverse).length - 1) (by omega)
      obtain ⟨b0, hb0⟩ := hfin 0 (by omega)
      obtain ⟨bL, hbL⟩ := hfin (pts.length - 1) (by omega)
      rcases Nat.mod_two_eq_zero_or_one i with hp | hp
      · obtain ⟨j, rfl⟩ : ∃ j, i = 2*j := ⟨i/2, by omega⟩
        rw [rp_get_even (pts.reverse) hrev3 j (by omega),
          pget_reverse _ _ (by omega),
          show 2 * pts.length - 1 - 1 - 2*j = 2 * (pts.length - 1 - j) by omega,
          rp_get_even pts h3 (pts.length - 1 - j) (by omega)]
      · obtain ⟨j, rfl⟩ : ∃ j, i = 2*j+1 := ⟨i/2, by omega⟩
        rw [rp_get_odd (pts.reverse) hrev3
            (by rw [ha0]; rfl) (by rw [haL]; rfl) j (by omega),
          show 2 * pts.length - 1 - 1 - (2*j+1) = 2 * (pts.length - 2 - j) + 1 by omega,
          rp_get_odd pts h3 (by rw [hb0]; rfl) (by rw [hbL]; rfl)
            (pts.length - 2 - j) (by omega)]
        rw [pget_reverse _ _ (by omega), pget_reverse _ _ (by omega)]
        rw [show pts.length - 1 - j = pts.length - 2 - j + 1 by omega,
          show pts.length - 1 - (j+1) = pts.length - 2 - j by omega]
        rw [fadd_comm]
theorem adjPairs_append_last : ∀ (l : List F) (_ : l ≠ []) (x : F),
    adjPairs (l ++ [x]) = adjPairs l ++ [(pget l (l.length - 1), x)] := by
  intro l
  induction l with
  | nil => intro h x; exact absurd rfl h
  | cons w t ih =>
    intro _ x
    cases t with
    | nil => rfl
    | cons v rest =>
      rw [show ((w :: v :: rest : List F) ++ [x]) = w :: ((v :: rest) ++ [x]) from rfl]
      rw [show ((v :: rest : List F) ++ [x]) = v :: (rest ++ [x]) from rfl]
      rw [adjPairs, show (v :: (rest ++ [x]) : List F) = (v :: rest) ++ [x] from rfl]
      rw [ih (by simp) x, adjPairs]
      rw [show ((w :: v :: rest : List F).length - 1) = ((v :: rest : List F).length - 1) + 1
        by simp]
      rw [pget_cons_succ]
      rfl

theorem adjPairs_reverse : ∀ (l : List F),
    adjPairs (l.reverse) = ((adjPairs l).map Prod.swap).reverse := by
  intro l
  induction l with
  | nil => rfl
  | cons y t ih =>
    cases t with
    | nil => rfl
    | cons z rest =>
      rw [List.reverse_cons,
        adjPairs_append_last ((z :: rest : List F).reverse) (by simp) y]
      rw [ih]
      have hlast : pget ((z :: rest : List F).reverse)
          (((z :: rest : List F).reverse).length - 1) = z := by
        rw [List.length_reverse, pget_reverse _ _ (by simp),
          show (z :: rest : List F).length - 1 - ((z :: rest : List F).length - 1) = 0
            by omega]
        rfl
      rw [hlast, adjPairs, List.map_cons, List.reverse_cons]
      rfl

theorem foldl_fadd_shift (v : F × F → F) :
    ∀ (m : List (F × F)) (z x : F),
      m.foldl (fun a t => fadd a (v t)) (fadd z x) =
        fadd (m.foldl (fun a t => fadd a (v t)) z) x := by
  intro m
  induction m with
  | nil => intro z x; rfl
  | cons p rest ih =>
    intro z x
    rw [List.foldl_cons, List.foldl_cons]
    rw [show fadd (fadd z x) (v p) = fadd (fadd z (v p)) x by
      rw [fadd_assoc, fadd_assoc, fadd_comm x]]
    exact ih _ _

theorem foldl_fadd_reverse (v : F × F → F) :
    ∀ (m : List (F × F)) (z : F),
      (m.reverse).foldl (fun a t => fadd a (v t)) z =
        m.foldl (fun a t => fadd a (v t)) z := by
  intro m
  induction m with
  | nil => intro z; rfl
  | cons p rest ih =>
    intro z
    rw [List.reverse_cons, List.foldl_append, ih]
    rw [show List.foldl (fun a t => fadd a (v t))
      (List.foldl (fun a t => fadd a (v t)) z rest) [p] =
      fadd (List.foldl (fun a t => fadd a (v t)) z rest) (v p) from rfl]
    rw [List.foldl_cons, ← foldl_fadd_shift]

theorem foldl_fadd_neg (w v : F × F → F) :
    ∀ (m : List (F × F)) (z : F), (∀ p ∈ m, w p = fneg (v p)) →
      m.foldl (fun a t => fadd a (w t)) (fneg z) =
        fneg (m.foldl (fun a t => fadd a (v t)) z) := by
  intro m
  induction m with
  | nil => intro z _; rfl
  | cons p rest ih =>
    intro z hm
    rw [List.foldl_cons, List.foldl_cons, hm p (by simp), fadd_fneg]
    exact ih _ (fun q hq => hm q (by simp [hq]))

theorem goSlice_zero_len (l : List F) : goSlice l 0 l.length = l := by
  simp [goSlice]

/-- Reversing an all-finite breakpoint sequence negates the iteration's
refined sum: each panel is traversed with swapped bounds. -/
theorem refinedSum_reverse (f : F → F) (pts : List F) (h2 : 2 ≤ pts.length)
    (hfin : ∀ i, i < pts.length → ∃ q : ℚ, pget pts i = F.fin q) :
    refinedSum f (pts.reverse) = fneg (refinedSum f pts) := by
  obtain ⟨b0, hb0⟩ := hfin 0 (by omega)
  obtain ⟨bL, hbL⟩ := hfin (pts.length - 1) (by omega)
  have hpp : panelPairs pts = adjPairs pts := by
    rw [panelPairs, panelStart, panelEnd,
      if_neg (by rw [hb0]; simp [isNInf]), if_neg (by rw [hbL]; simp [isPInf])]
    rw [show (1:Nat) - 1 = 0 from rfl, goSlice_zero_len]
  have hR0 : pget (pts.reverse) 0 = F.fin bL := by
    rw [pget_reverse _ _ (by omega), show pts.length - 1 - 0 = pts.length - 1 by omega,
      hbL]
  have hRL : pget (pts.reverse) ((pts.reverse).length - 1) = F.fin b0 := by
    rw [List.length_reverse, pget_reverse _ _ (by omega),
      show pts.length - 1 - (pts.length - 1) = 0 by omega, hb0]
  have hppR : panelPairs (pts.reverse) = adjPairs (pts.reverse) := by
    rw [panelPairs, panelStart, panelEnd,
      if_neg (by rw [hR0]; simp [isNInf]),
      if_neg (by rw [hRL]; simp [isPInf])]
    rw [show (1:Nat) - 1 = 0 from rfl, goSlice_zero_len]
  rw [refinedSum, refinedSum, hpp, hppR, adjPairs_reverse]
  rw [foldl_fadd_reverse (fun LR => boolesrule f LR.1 LR.2)]
  rw [List.foldl_map]
  have hz : (F.fin 0 : F) = fneg (F.fin 0) := by simp [fneg, qneg_eq]
  conv_lhs => rw [hz]
  refine foldl_fadd_neg _ _ (adjPairs pts) (F.fin 0) ?_
  intro p hp
  obtain ⟨i, hi, h1, h2'⟩ := adjPairs_mem pts p hp
  obtain ⟨x, hx⟩ := hfin i (by omega)
  obtain ⟨y, hy⟩ := hfin (i+1) (by omega)
  show boolesrule f p.2 p.1 = fneg (boolesrule f p.1 p.2)
  rw [h1, h2', hx, hy]
  exact boolesrule_swap_fin f x y
theorem WInv_all_fin (a b : ℚ) (pts : List F)
    (h : WInv (F.fin a) (F.fin b) pts) :
    ∀ i, i < pts.length → ∃ q : ℚ, pget pts i = F.fin q := by
  obtain ⟨hlen, hfirst, hlast, hint⟩ := h
  intro i hi
  rcases Nat.lt_or_ge i 1 with h0 | h0
  · have hz : i = 0 := by omega
    subst hz
    exact ⟨a, hfirst⟩
  · rcases Nat.lt_or_ge i (pts.length - 1) with hL | hL
    · exact hint i h0 (by omega)
    · have hz : i = pts.length - 1 := by omega
      subst hz
      exact ⟨b, hlast⟩

theorem integrateLoop_reverse (f : F → F) (err : F) (a b : ℚ) :
    ∀ (fuel : Nat) (pts : List F) (ret : F),
      (WInv (F.fin b) (F.fin a) pts ∨ pts = [F.fin b, F.fin a]) →
      integrateLoop f err (pts.reverse) (fneg ret) fuel =
        Option.map fneg (integrateLoop f err pts ret fuel) := by
  intro fuel
  induction fuel with
  | zero => intros; rfl
  | succ n ih =>
    intro pts ret hp
    have hfin : ∀ i, i < pts.length → ∃ q : ℚ, pget pts i = F.fin q := by
      rcases hp with h | rfl
      · exact WInv_all_fin b a pts h
      · intro i hi
        simp at hi
        rcases i with _ | _ | i
        · exact ⟨b, rfl⟩
        · exact ⟨a, rfl⟩
        · omega
    have h2 : 2 ≤ pts.length := by
      rcases hp with h | rfl
      · have := h.hlen
        omega
      · simp
    have hW' : WInv (F.fin b) (F.fin a) (refinedPoints pts) := by
      rcases hp with h | rfl
      · exact WInv_step _ _ _ (Or.inr ⟨b, rfl⟩) (Or.inr ⟨a, rfl⟩) h
      · rw [rp_pair_fin]
        exact WInv_of_triple _ _ _
    have hrp_rev : refinedPoints (pts.reverse) = (refinedPoints pts).reverse :=
      rp_reverse pts h2 hfin
    have hsum : refinedSum f (refinedPoints (pts.reverse)) =
        fneg (refinedSum f (refinedPoints pts)) := by
      rw [hrp_rev]
      exact refinedSum_reverse f (refinedPoints pts)
        (by rw [length_refinedPoints]; omega) (WInv_all_fin b a _ hW')
    rw [integrateLoop_succ, integrateLoop_succ, hsum, hrp_rev]
    simp only [isPInf_fneg, isNInf_fneg, fsub_fneg_fneg, fabs_fneg]
    by_cases hP : isPInf ret = true ∧ isPInf (refinedSum f (refinedPoints pts)) = true
    · by_cases hN : isNInf ret = true ∧ isNInf (refinedSum f (refinedPoints pts)) = true
      · rcases hP with ⟨hP1, _⟩
        rcases hN with ⟨hN1, _⟩
        cases ret <;> simp [isPInf, isNInf] at hP1 hN1
      · simp [hP, hN]
    · by_cases hN : isNInf ret = true ∧ isNInf (refinedSum f (refinedPoints pts)) = true
      · simp [hP, hN]
      · by_cases hC : flt (fabs (fsub ret (refinedSum f (refinedPoints pts)))) err = true
        · simp [hP, hN, hC]
        · simp only [hP, hN, hC, if_false, if_neg]
          exact ih (refinedPoints pts) _ (Or.inl hW')

/-- **C9**: for finite `a > b`, `Integrate` performs no validation and
runs the same loop on the decreasing sequence `[a, b]`; over exact
arithmetic it returns exactly the negation of `Integrate(f, b, a, tol)`,
iteration for iteration: the midpoint formulas are order-agnostic and
`boolesrule` is antisymmetric under swapping its bounds. -/
theorem C9_reversed_interval (f : F → F) (a b : ℚ) (err : F) (fuel : Nat)
    (hab : b < a) :
    Integrate f (F.fin a) (F.fin b) err fuel =
      Option.map fneg (Integrate f (F.fin b) (F.fin a) err fuel) := by
  rw [Integrate, Integrate, if_neg (by simp [isNInf, isPInf]),
    if_neg (by simp [isNInf, isPInf])]
  rw [show ([F.fin a, F.fin b] : List F) = ([F.fin b, F.fin a] : List F).reverse
    from rfl]
  rw [boolesrule_swap_fin f b a]
  exact integrateLoop_reverse f err a b fuel [F.fin b, F.fin a]
    (boolesrule f (F.fin b) (F.fin a)) (Or.inr rfl)

/-- Witness for C9: the identity integrand on the reversed interval
`[1, 0]`. -/
theorem C9_reversed_interval_witness :
    Integrate (fun v => v) (F.fin 1) (F.fin 0) (F.fin 1) 1 =
      Option.map fneg (Integrate (fun v => v) (F.fin 0) (F.fin 1) (F.fin 1) 1) :=
  C9_reversed_interval (fun v => v) 1 0 (F.fin 1) 1 (by norm_num)
